import Mathlib

/-!
Verification of `beautify_git_hash.py`.

The script is embedded shallowly: Python 2 byte strings become `List Nat`
(one `Nat` per byte), the mutable `aggregate_values` dictionary becomes an
explicit `AggregateValues` record threaded through the line processing,
Python exceptions become `Option`/explicit outcome constructors, and the
`%`-style string formatting used by the script is modelled by small
state-machine interpreters (`pyFmtGo` for `%(name)i` dictionary formatting,
`pyFmtPosGo` for positional `%i`/`%s` formatting).  SHA-1 is implemented
over byte lists with `Nat` arithmetic reduced mod 2^32.
-/

set_option maxRecDepth 10000

/-- Bytes of an ASCII string literal. -/
def ascii (s : String) : List Nat := s.data.map Char.toNat

/-- Python `line.split(sep)` for a single-byte separator: splits on every
occurrence, keeping empty groups; always returns at least one group. -/
def splitByte (s : Nat) : List Nat → List (List Nat)
  | [] => [[]]
  | b :: rest =>
    match splitByte s rest with
    | [] => [[]]
    | g :: gs => if b = s then [] :: g :: gs else (b :: g) :: gs

/-- Python `sep.join(groups)` for a single-byte separator. -/
def joinByte (s : Nat) : List (List Nat) → List Nat
  | [] => []
  | [g] => g
  | g :: gs => g ++ s :: joinByte s gs

/-- Python `line.replace('%', '%%')`: every `%` byte (37) is doubled. -/
def escapePercent : List Nat → List Nat
  | [] => []
  | b :: rest => if b = 37 then 37 :: 37 :: escapePercent rest else b :: escapePercent rest

def isDigitByte (b : Nat) : Bool := 48 ≤ b && b ≤ 57

/-- The whitespace bytes stripped by Python `int()`. -/
def isSpaceByte (b : Nat) : Bool := b = 32 || b = 9 || b = 10 || b = 13 || b = 11 || b = 12

def stripSpaces (l : List Nat) : List Nat :=
  ((l.dropWhile isSpaceByte).reverse.dropWhile isSpaceByte).reverse

def digitsToNat (ds : List Nat) : Nat := ds.foldl (fun acc b => acc * 10 + (b - 48)) 0

def digitsVal (ds : List Nat) : Option Int :=
  if ds.isEmpty then none
  else if ds.all isDigitByte then some (digitsToNat ds) else none

/-- Python `int(word)`: optional surrounding whitespace, optional sign,
then a nonempty run of decimal digits; anything else raises (here `none`). -/
def pyInt (w : List Nat) : Option Int :=
  match stripSpaces w with
  | [] => none
  | b :: ds =>
    if b = 43 then digitsVal ds
    else if b = 45 then (digitsVal ds).map (fun n => -n)
    else digitsVal (b :: ds)

/-- Bytes of Python `'%i' % v` for an integer `v`. -/
def intBytes (v : Int) : List Nat := ascii (toString v)

/-! ### SHA-1 over byte lists -/

def w32 (n : Nat) : Nat := n % 4294967296

def rotl (s n : Nat) : Nat := w32 (n * 2 ^ s + n / 2 ^ (32 - s))

/-- 8 bytes, big endian, of the 64-bit message bit length. -/
def be8 (n : Nat) : List Nat :=
  let m := n % 18446744073709551616
  [m / 2 ^ 56 % 256, m / 2 ^ 48 % 256, m / 2 ^ 40 % 256, m / 2 ^ 32 % 256,
   m / 2 ^ 24 % 256, m / 2 ^ 16 % 256, m / 2 ^ 8 % 256, m % 256]

def sha1Pad (msg : List Nat) : List Nat :=
  let len := msg.length
  let k := (120 - (len + 1) % 64) % 64
  msg ++ 128 :: List.replicate k 0 ++ be8 (8 * len)

def sha1Chunks : Nat → List Nat → List (List Nat)
  | 0, _ => []
  | _, [] => []
  | fuel + 1, l => l.take 64 :: sha1Chunks fuel (l.drop 64)

/-- Big-endian 32-bit words from bytes. -/
def beWords : List Nat → List Nat
  | b0 :: b1 :: b2 :: b3 :: rest =>
      (b0 * 16777216 + b1 * 65536 + b2 * 256 + b3) :: beWords rest
  | _ => []

/-- Extend the 16 block words to 80 schedule words; `acc` holds the words
produced so far, most recent first. -/
def sha1SchedAux : Nat → List Nat → List Nat
  | 0, acc => acc.reverse
  | n + 1, acc =>
      sha1SchedAux n
        (rotl 1 ((acc.getD 2 0) ^^^ (acc.getD 7 0) ^^^ (acc.getD 13 0) ^^^ (acc.getD 15 0)) :: acc)

def sha1Sched (ws : List Nat) : List Nat := sha1SchedAux 64 ws.reverse

def sha1F (t b c d : Nat) : Nat :=
  if t < 20 then (b &&& c) ||| ((b ^^^ 4294967295) &&& d)
  else if t < 40 then b ^^^ c ^^^ d
  else if t < 60 then (b &&& c) ||| (b &&& d) ||| (c &&& d)
  else b ^^^ c ^^^ d

def sha1K (t : Nat) : Nat :=
  if t < 20 then 1518500249
  else if t < 40 then 1859775393
  else if t < 60 then 2400959708
  else 3395469782

def sha1Rounds : Nat → List Nat → Nat × Nat × Nat × Nat × Nat → Nat × Nat × Nat × Nat × Nat
  | _, [], st => st
  | t, w :: ws, (a, b, c, d, e) =>
      sha1Rounds (t + 1) ws
        (w32 (rotl 5 a + sha1F t b c d + e + sha1K t + w), a, rotl 30 b, c, d)

def sha1Block (h : Nat × Nat × Nat × Nat × Nat) (block : List Nat) :
    Nat × Nat × Nat × Nat × Nat :=
  let (h0, h1, h2, h3, h4) := h
  let (a, b, c, d, e) := sha1Rounds 0 (sha1Sched (beWords block)) (h0, h1, h2, h3, h4)
  (w32 (h0 + a), w32 (h1 + b), w32 (h2 + c), w32 (h3 + d), w32 (h4 + e))

def hexDigit (d : Nat) : Nat := if d < 10 then 48 + d else 87 + d

/-- Exactly `k` lowercase hex digits of `n`, most significant first. -/
def hexFixed : Nat → Nat → List Nat
  | 0, _ => []
  | k + 1, n => hexFixed k (n / 16) ++ [hexDigit (n % 16)]

def hex8 (n : Nat) : List Nat := hexFixed 8 n

/-- Lowercase hex SHA-1 digest of a byte list, as a byte list. -/
def sha1Hex (msg : List Nat) : List Nat :=
  let padded := sha1Pad msg
  let blocks := sha1Chunks padded.length padded
  let (h0, h1, h2, h3, h4) :=
    blocks.foldl sha1Block (1732584193, 4023233417, 2562383102, 271733878, 3285377520)
  hex8 h0 ++ hex8 h1 ++ hex8 h2 ++ hex8 h3 ++ hex8 h4

/-! ### Python `%`-formatting with a dictionary: `fmt % {name: int}` -/

/-- Parser state of the `%(name)i` formatter: `normal` text, `percent` right
after a `%`, `name acc` inside `%(...)` with the name bytes accumulated in
reverse, `conv acc` right after the closing `)`. -/
inductive FmtState
  | normal
  | percent
  | name (acc : List Nat)
  | conv (acc : List Nat)

/-- Interpreter for the subset of Python `%`-dict-formatting that commit
templates can contain: literal bytes, `%%`, and `%(name)i`.  Any other
directive (as well as a missing dictionary key) raises in Python; here it
yields `none`. -/
def pyFmtGo (vals : List Nat → Option Int) : FmtState → List Nat → Option (List Nat)
  | .normal, [] => some []
  | .normal, b :: rest =>
      if b = 37 then pyFmtGo vals .percent rest
      else Option.map (fun t => b :: t) (pyFmtGo vals .normal rest)
  | .percent, [] => none
  | .percent, b :: rest =>
      if b = 37 then Option.map (fun t => 37 :: t) (pyFmtGo vals .normal rest)
      else if b = 40 then pyFmtGo vals (.name []) rest
      else none
  | .name _, [] => none
  | .name acc, b :: rest =>
      if b = 41 then pyFmtGo vals (.conv acc) rest
      else pyFmtGo vals (.name (b :: acc)) rest
  | .conv _, [] => none
  | .conv acc, b :: rest =>
      if b = 105 then
        match vals acc.reverse with
        | some v => Option.map (fun t => intBytes v ++ t) (pyFmtGo vals .normal rest)
        | none => none
      else none

def pyFmtNamed (vals : List Nat → Option Int) (fmt : List Nat) : Option (List Nat) :=
  pyFmtGo vals .normal fmt

/-! ### Python positional `%`-formatting: `fmt % (args...)` for `%i`/`%s` -/

inductive PyArg
  | i (n : Int)
  | s (bs : List Nat)

def pyFmtPosGo : Bool → List PyArg → List Nat → Option (List Nat)
  | false, args, [] => if args.isEmpty then some [] else none
  | false, args, b :: rest =>
      if b = 37 then pyFmtPosGo true args rest
      else Option.map (fun t => b :: t) (pyFmtPosGo false args rest)
  | true, _, [] => none
  | true, args, b :: rest =>
      if b = 37 then Option.map (fun t => 37 :: t) (pyFmtPosGo false args rest)
      else if b = 105 then
        match args with
        | .i n :: args2 => Option.map (fun t => intBytes n ++ t) (pyFmtPosGo false args2 rest)
        | _ => none
      else if b = 115 then
        match args with
        | .s bs :: args2 => Option.map (fun t => bs ++ t) (pyFmtPosGo false args2 rest)
        | _ => none
      else none

def pyFmtPos (fmt : List Nat) (args : List PyArg) : Option (List Nat) :=
  pyFmtPosGo false args fmt

/-- `'%i %s' % (ts, tz)`, as used for the proposal date values. -/
def fmt_ts_tz (ts : Int) (tz : List Nat) : List Nat :=
  (pyFmtPos (ascii "%i %s") [.i ts, .s tz]).getD []

/-- `git_commit_hash`: SHA-1 hex digest of `'commit %i\x00%s' % (len(commit), commit)`. -/
def git_commit_hash (commit : List Nat) : List Nat :=
  sha1Hex ((pyFmtPos (ascii "commit %i\x00%s") [.i commit.length, .s commit]).getD [])

/-! ### The canonicalizer: `commit_line_to_format` / `commit_to_format` -/

/-- The mutable `aggregate_values` dictionary of the script, as a record of
optional entries (a key is `none` while unset). -/
structure AggregateValues where
  author_date_timestamp : Option Int := none
  author_date_tz : Option (List Nat) := none
  committer_date_timestamp : Option Int := none
  committer_date_tz : Option (List Nat) := none
deriving DecidableEq, Repr

/-- One line of `commit_line_to_format`: escape `%`, split on spaces; on an
`author`/`committer` line record the parsed second-to-last word and the last
word and replace the second-to-last word by the named placeholder.  `none`
models the exceptions Python can raise here (IndexError on a 1-word line,
ValueError from `int`). -/
def commit_line_to_format (line : List Nat) (v : AggregateValues) :
    Option (List Nat × AggregateValues) :=
  let format_words := splitByte 32 (escapePercent line)
  if format_words.headD [] = ascii "author" then
    if format_words.length < 2 then none
    else
      match pyInt ((format_words.get? (format_words.length - 2)).getD []) with
      | none => none
      | some ts =>
        let tz := (format_words.get? (format_words.length - 1)).getD []
        some (joinByte 32 (format_words.set (format_words.length - 2)
                (ascii "%(author_date_timestamp)i")),
              { v with author_date_timestamp := some ts, author_date_tz := some tz })
  else if format_words.headD [] = ascii "committer" then
    if format_words.length < 2 then none
    else
      match pyInt ((format_words.get? (format_words.length - 2)).getD []) with
      | none => none
      | some ts =>
        let tz := (format_words.get? (format_words.length - 1)).getD []
        some (joinByte 32 (format_words.set (format_words.length - 2)
                (ascii "%(committer_date_timestamp)i")),
              { v with committer_date_timestamp := some ts, committer_date_tz := some tz })
  else some (joinByte 32 format_words, v)

/-- Process the lines in order, threading the aggregate values. -/
def processLines : List (List Nat) → AggregateValues →
    Option (List (List Nat) × AggregateValues)
  | [], v => some ([], v)
  | l :: ls, v =>
    match commit_line_to_format l v with
    | none => none
    | some (fl, v1) =>
      match processLines ls v1 with
      | none => none
      | some (fls, v2) => some (fl :: fls, v2)

/-- `commit_to_format`: split into lines, format each, rejoin with `\n`. -/
def commit_to_format (commit : List Nat) : Option (List Nat × AggregateValues) :=
  (processLines (splitByte 10 commit) {}).map (fun p => (joinByte 10 p.1, p.2))

/-- The `new_values` dictionary built in the search loop: exactly the two
timestamp keys. -/
def newValsLookup (a c : Int) (key : List Nat) : Option Int :=
  if key = ascii "author_date_timestamp" then some a
  else if key = ascii "committer_date_timestamp" then some c
  else none

/-! ### The search: `find_beautiful_git_hash` -/

inductive SearchOutcome
  | invalidPfx
  | parseFailed
  | keyFailed
  | formatFailed
  | noOp
  | proposal (committer_date : List Nat) (author_date : List Nat)
  | exhausted
deriving DecidableEq, Repr

/-- Membership in `ALLOWED_PREFIX_CHARACTERS = '0123456789abcdef'`.  The
script's validity test `prefix.lstrip(ALLOWED_PREFIX_CHARACTERS) == ''`
holds exactly when every byte of the prefix is in this set. -/
def hexLower (b : Nat) : Bool := (ascii "0123456789abcdef").contains b

/-- The candidate byte string at offsets `(c, a)`: the template instantiated
with the shifted timestamps. -/
def candAt (fmt : List Nat) (oldA oldC : Int) (c a : Nat) : Option (List Nat) :=
  pyFmtNamed (newValsLookup (oldA + (a : Int)) (oldC + (c : Int))) fmt

/-- Whether the candidate digest at offsets `(c, a)` starts with `pfx`. -/
def matchesAt (fmt : List Nat) (oldA oldC : Int) (pfx : List Nat) (c a : Nat) : Bool :=
  match candAt fmt oldA oldC c a with
  | some m => List.isPrefixOf pfx (git_commit_hash m)
  | none => false

/-- The enumeration order of the nested loops: `committer_date_offset` from
`0` to `maxSec` (outer), `author_date_offset` from `0` to the committer
offset (inner). -/
def pairsUpTo (maxSec : Nat) : List (Nat × Nat) :=
  (List.range (maxSec + 1)).flatMap (fun c => (List.range (c + 1)).map (fun a => (c, a)))

/-- Build the proposal dictionary from the stored timezones (a missing key
would be a Python KeyError, modelled as `keyFailed`). -/
def proposalOf (tzC tzA : Option (List Nat)) (newC newA : Int) : SearchOutcome :=
  match tzC, tzA with
  | some zC, some zA => .proposal (fmt_ts_tz newC zC) (fmt_ts_tz newA zA)
  | _, _ => .keyFailed

/-- The body of the nested loops over the remaining offset pairs. -/
def searchLoop (fmt : List Nat) (oldA oldC : Int) (tzA tzC : Option (List Nat))
    (pfx : List Nat) : List (Nat × Nat) → SearchOutcome
  | [] => .exhausted
  | (c, a) :: rest =>
    match candAt fmt oldA oldC c a with
    | none => .formatFailed
    | some commit =>
      if List.isPrefixOf pfx (git_commit_hash commit) then
        if a == 0 && c == 0 then .noOp
        else proposalOf tzC tzA (oldC + (c : Int)) (oldA + (a : Int))
      else searchLoop fmt oldA oldC tzA tzC pfx rest

/-- `find_beautiful_git_hash(old_commit, prefix, max_minutes=30)`.
`invalidPfx` is the prefix-validation exception, `noOp` is `return None`,
`exhausted` is the final `Unable to find beautiful hash!` exception;
`parseFailed`/`keyFailed`/`formatFailed` model the exceptions a structurally
malformed commit raises (ValueError/IndexError/KeyError). -/
def find_beautiful_git_hash (old_commit : List Nat) (pfx : List Nat)
    (max_minutes : Nat := 30) : SearchOutcome :=
  if pfx.all hexLower then
    match commit_to_format old_commit with
    | none => .parseFailed
    | some (fmt, old_values) =>
      match old_values.author_date_timestamp, old_values.committer_date_timestamp with
      | some oldA, some oldC =>
          searchLoop fmt oldA oldC old_values.author_date_tz old_values.committer_date_tz
            pfx (pairsUpTo (max_minutes * 60))
      | _, _ => .keyFailed
  else .invalidPfx

/-! ### Deriving the automatic prefix -/

/-- Python `s.rstrip('\n')`. -/
def rstripNl (l : List Nat) : List Nat := (l.reverse.dropWhile (fun b => b = 10)).reverse

/-- Python `s.rjust(w, '0')`. -/
def rjustZero (w : Nat) (l : List Nat) : List Nat :=
  if l.length < w then List.replicate (w - l.length) 48 ++ l else l

/-- The auto-prefix derivation, proposed_prefix (previous_commit,
number_length=4) in the script.  The external
`git rev-parse` call is a parameter: `resolved = none` models the
`CalledProcessError` taken as "no previous commit" (counter starts at 1);
`some output` is its raw standard output.  `none` as a result models the
uncaught ValueError when the leading characters do not parse as decimal. -/
def proposed_prefix (resolved : Option (List Nat)) (number_length : Nat := 4) :
    Option (List Nat) :=
  let new_number :=
    match resolved with
    | some output => (pyInt ((rstripNl output).take number_length)).map (fun n => n + 1)
    | none => some 1
  new_number.map (fun n => rjustZero number_length (intBytes n) ++ [97])

/-! ### Derived predicates used to state the claims -/

/-- First word (of the escaped split) is `author`, as tested by the script. -/
def isAuthorLine (l : List Nat) : Bool :=
  (splitByte 32 (escapePercent l)).headD [] == ascii "author"

def isCommitterLine (l : List Nat) : Bool :=
  (splitByte 32 (escapePercent l)).headD [] == ascii "committer"

/-- The timestamp the script would extract from this line (the parsed
second-to-last word of the escaped split), if any. -/
def lineTimestamp (l : List Nat) : Option Int :=
  let ws := splitByte 32 (escapePercent l)
  if ws.length < 2 then none else pyInt ((ws.get? (ws.length - 2)).getD [])

/-- The timezone the script records: the last word of the escaped split. -/
def lineLastWord (l : List Nat) : Option (List Nat) :=
  let ws := splitByte 32 (escapePercent l)
  if ws.length < 2 then none else ws.get? (ws.length - 1)

/-- The raw (unescaped) last word of a line. -/
def lineRawTz (l : List Nat) : Option (List Nat) := (splitByte 32 l).getLast?

/-- The raw timezone of the first `committer` line of a commit. -/
def committerTzRaw (commit : List Nat) : Option (List Nat) :=
  (splitByte 10 commit).findSome? (fun l => if isCommitterLine l then lineRawTz l else none)

/-- The raw timezone of the first `author` line of a commit. -/
def authorTzRaw (commit : List Nat) : Option (List Nat) :=
  (splitByte 10 commit).findSome? (fun l => if isAuthorLine l then lineRawTz l else none)

/-- The well-formedness stated by the claims: exactly one `author` line and
one `committer` line, each with an integer second-to-last space-delimited
field. -/
def claimWellFormed (commit : List Nat) : Bool :=
  let ls := splitByte 10 commit
  ls.countP isAuthorLine == 1 && ls.countP isCommitterLine == 1 &&
  ls.all (fun l => if isAuthorLine l || isCommitterLine l then (lineTimestamp l).isSome else true)

/-- A line is canonical when, if it is an `author`/`committer` line, its raw
second-to-last word is exactly the canonical decimal rendering (`'%i'`) of
the integer the script parses from it. -/
def lineCanonical (l : List Nat) : Bool :=
  if isAuthorLine l || isCommitterLine l then
    let rs := splitByte 32 l
    if rs.length < 2 then false
    else
      let w := (rs.get? (rs.length - 2)).getD []
      match pyInt (escapePercent w) with
      | some v => intBytes v == w
      | none => false
  else true

/-- Claim well-formedness strengthened by canonical timestamp fields. -/
def canonicalCommit (commit : List Nat) : Bool :=
  claimWellFormed commit && (splitByte 10 commit).all lineCanonical &&
  (commit_to_format commit).isSome

/-- The round-trip property: the template instantiated with the original
extracted timestamp values reproduces the original bytes. -/
def roundTrips (commit : List Nat) : Bool :=
  match commit_to_format commit with
  | some (fmt, v) =>
    match v.author_date_timestamp, v.committer_date_timestamp with
    | some a, some c => pyFmtNamed (newValsLookup a c) fmt == some commit
    | _, _ => false
  | none => false

/-- The commit parses and both timestamp/timezone pairs were extracted. -/
def parsesOk (commit : List Nat) : Bool :=
  match commit_to_format commit with
  | some (_, v) =>
      v.author_date_timestamp.isSome && v.committer_date_timestamp.isSome &&
      v.author_date_tz.isSome && v.committer_date_tz.isSome
  | none => false

/-- `matchesAt` lifted to a raw commit: whether the candidate digest of
`commit` at offsets `(c, a)` starts with `pfx`. -/
def commitMatchesAt (commit pfx : List Nat) (c a : Nat) : Bool :=
  match commit_to_format commit with
  | some (fmt, v) =>
    match v.author_date_timestamp, v.committer_date_timestamp with
    | some oldA, some oldC => matchesAt fmt oldA oldC pfx c a
    | _, _ => false
  | none => false

/-- `SegOK vals seg out`: in normal state, the formatter turns `seg` into
`out` and continues with whatever follows. -/
def SegOK (vals : List Nat → Option Int) (seg out : List Nat) : Prop :=
  ∀ rest, pyFmtGo vals .normal (seg ++ rest) =
    Option.map (fun t => out ++ t) (pyFmtGo vals .normal rest)

/-- Lexicographic order on `(committer_offset, author_offset)` pairs,
committer offset compared first. -/
def pairLexLT (p q : Nat × Nat) : Prop := p.1 < q.1 ∨ (p.1 = q.1 ∧ p.2 < q.2)

/-- The timezone component of a `'%i %s'`-formatted date value: everything
after the first space. -/
def dateTz (bs : List Nat) : List Nat := (bs.dropWhile (fun b => b != 32)).drop 1

/-! ### Basic digest checks -/

theorem sha1Hex_abc : sha1Hex (ascii "abc") = ascii "a9993e364706816aba3e25717850c26c9cd0d89d" := by
  decide

theorem sha1Hex_empty : sha1Hex [] = ascii "da39a3ee5e6b4b0d3255bfef95601890afd80709" := by
  decide

/-! ### Splitting / joining / escaping lemmas -/

theorem escapePercent_cons_37 (rest : List Nat) :
    escapePercent (37 :: rest) = 37 :: 37 :: escapePercent rest := by
  simp [escapePercent]

theorem escapePercent_cons_ne (b : Nat) (rest : List Nat) (hb : b ≠ 37) :
    escapePercent (b :: rest) = b :: escapePercent rest := by
  simp [escapePercent, hb]

theorem splitByte_ne_nil (s : Nat) (l : List Nat) : splitByte s l ≠ [] := by
  cases l with
  | nil => simp [splitByte]
  | cons b rest =>
    rw [splitByte]
    cases splitByte s rest with
    | nil => simp
    | cons g gs => by_cases hb : b = s <;> simp [hb]

theorem splitByte_cons_eq (s : Nat) (l : List Nat) :
    splitByte s (s :: l) = [] :: splitByte s l := by
  simp only [splitByte]
  cases h : splitByte s l with
  | nil => exact absurd h (splitByte_ne_nil s l)
  | cons g gs => simp

theorem splitByte_cons_ne (s b : Nat) (hb : b ≠ s) (g : List Nat) (gs : List (List Nat))
    (h : splitByte s l = g :: gs) : splitByte s (b :: l) = (b :: g) :: gs := by
  simp only [splitByte, h, if_neg hb]

theorem joinByte_cons_cons (s : Nat) (g g' : List Nat) (gs : List (List Nat)) :
    joinByte s (g :: g' :: gs) = g ++ s :: joinByte s (g' :: gs) := rfl

theorem joinByte_splitByte (s : Nat) (l : List Nat) : joinByte s (splitByte s l) = l := by
  induction l with
  | nil => rfl
  | cons b rest ih =>
    cases h : splitByte s rest with
    | nil => exact absurd h (splitByte_ne_nil s rest)
    | cons g gs =>
      rw [h] at ih
      by_cases hb : b = s
      · subst hb
        rw [splitByte_cons_eq, h, joinByte_cons_cons]
        simp [ih]
      · rw [splitByte_cons_ne s b hb g gs h]
        cases gs with
        | nil => simpa [joinByte] using congrArg (fun t => b :: t) ih
        | cons g' gs' =>
          rw [joinByte_cons_cons] at ih ⊢
          simp [ih]

theorem splitByte_escape (l : List Nat) :
    splitByte 32 (escapePercent l) = (splitByte 32 l).map escapePercent := by
  induction l with
  | nil => rfl
  | cons b rest ih =>
    cases h : splitByte 32 rest with
    | nil => exact absurd h (splitByte_ne_nil 32 rest)
    | cons g gs =>
      rw [h] at ih
      have ih' : splitByte 32 (escapePercent rest) =
          escapePercent g :: List.map escapePercent gs := by simpa using ih
      by_cases hb : b = 37
      · subst hb
        have h37 : (37 : Nat) ≠ 32 := by decide
        have h1 := splitByte_cons_ne 32 37 h37 _ _ ih'
        have h2 := splitByte_cons_ne 32 37 h37 _ _ h1
        have h3 := splitByte_cons_ne 32 37 h37 g gs h
        rw [escapePercent_cons_37, h2, h3]
        simp [escapePercent_cons_37]
      · by_cases hs : b = 32
        · subst hs
          rw [escapePercent_cons_ne 32 rest hb, splitByte_cons_eq, splitByte_cons_eq, ih, h]
          simp [escapePercent]
        · have h1 := splitByte_cons_ne 32 b hs _ _ ih'
          have h3 := splitByte_cons_ne 32 b hs g gs h
          rw [escapePercent_cons_ne b rest hb, h1, h3]
          simp [escapePercent_cons_ne b g hb]

/-! ### Formatter algebra: segments that format to a known output -/

theorem SegOK.nil (vals : List Nat → Option Int) : SegOK vals [] [] := by
  intro rest
  rw [List.nil_append]
  cases pyFmtGo vals .normal rest <;> simp

theorem SegOK.append {vals : List Nat → Option Int} {s1 o1 s2 o2 : List Nat}
    (h1 : SegOK vals s1 o1) (h2 : SegOK vals s2 o2) : SegOK vals (s1 ++ s2) (o1 ++ o2) := by
  intro rest
  rw [List.append_assoc, h1, h2]
  cases pyFmtGo vals .normal rest <;> simp

theorem SegOK.byte {vals : List Nat → Option Int} {b : Nat} (hb : b ≠ 37) :
    SegOK vals [b] [b] := by
  intro rest
  have step : pyFmtGo vals .normal ([b] ++ rest) =
      Option.map (fun t => b :: t) (pyFmtGo vals .normal rest) := by
    simp [pyFmtGo, hb]
  rw [step]
  cases pyFmtGo vals .normal rest <;> simp

theorem SegOK.esc (vals : List Nat → Option Int) (w : List Nat) :
    SegOK vals (escapePercent w) w := by
  induction w with
  | nil => exact SegOK.nil vals
  | cons b w ih =>
    by_cases hb : b = 37
    · subst hb
      rw [escapePercent_cons_37]
      intro rest
      have step : pyFmtGo vals .normal ((37 :: 37 :: escapePercent w) ++ rest) =
          Option.map (fun t => 37 :: t) (pyFmtGo vals .normal (escapePercent w ++ rest)) := by
        simp [pyFmtGo]
      rw [step, ih rest]
      cases pyFmtGo vals .normal rest <;> simp
    · rw [escapePercent_cons_ne b w hb]
      intro rest
      have step : pyFmtGo vals .normal ((b :: escapePercent w) ++ rest) =
          Option.map (fun t => b :: t) (pyFmtGo vals .normal (escapePercent w ++ rest)) := by
        simp [pyFmtGo, hb]
      rw [step, ih rest]
      cases pyFmtGo vals .normal rest <;> simp

theorem pyFmtGo_name_scan (vals : List Nat → Option Int) (nm : List Nat)
    (h : ∀ b ∈ nm, b ≠ 41) :
    ∀ acc rest, pyFmtGo vals (.name acc) (nm ++ 41 :: rest) =
      pyFmtGo vals (.conv (nm.reverse ++ acc)) rest := by
  induction nm with
  | nil => intro acc rest; simp [pyFmtGo]
  | cons b nm ih =>
    intro acc rest
    have hb : b ≠ 41 := h b (by simp)
    rw [List.cons_append]
    have step : pyFmtGo vals (.name acc) (b :: (nm ++ 41 :: rest)) =
        pyFmtGo vals (.name (b :: acc)) (nm ++ 41 :: rest) := by
      simp [pyFmtGo, hb]
    rw [step, ih (fun x hx => h x (by simp [hx])) (b :: acc) rest]
    simp

theorem SegOK.placeholder {vals : List Nat → Option Int} {nm : List Nat} {v : Int}
    (hnm : ∀ b ∈ nm, b ≠ 41) (hv : vals nm = some v) :
    SegOK vals (37 :: 40 :: (nm ++ [41, 105])) (intBytes v) := by
  intro rest
  have step1 : pyFmtGo vals .normal ((37 :: 40 :: (nm ++ [41, 105])) ++ rest) =
      pyFmtGo vals (.name []) ((nm ++ [41, 105]) ++ rest) := by
    simp [pyFmtGo]
  have step2 : (nm ++ [41, 105]) ++ rest = nm ++ 41 :: 105 :: rest := by
    simp
  rw [step1, step2, pyFmtGo_name_scan vals nm hnm [] (105 :: rest)]
  have step3 : pyFmtGo vals (.conv (nm.reverse ++ [])) (105 :: rest) =
      Option.map (fun t => intBytes v ++ t) (pyFmtGo vals .normal rest) := by
    simp [pyFmtGo, hv]
  rw [step3]

theorem SegOK.joinSep {vals : List Nat → Option Int} {s : Nat} (hs : s ≠ 37)
    {ws outs : List (List Nat)} (h : List.Forall₂ (SegOK vals) ws outs) :
    SegOK vals (joinByte s ws) (joinByte s outs) := by
  induction h with
  | nil => exact SegOK.nil vals
  | @cons w out ws outs hseg htail ih =>
    cases htail with
    | nil => exact hseg
    | @cons w' out' ws' outs' hseg' htail' =>
      rw [joinByte_cons_cons, joinByte_cons_cons]
      have hb : SegOK vals (s :: joinByte s (w' :: ws')) (s :: joinByte s (out' :: outs')) := by
        have h2 := (@SegOK.byte vals s hs).append ih
        simpa using h2
      exact hseg.append hb

/-! ### Concrete placeholder segments -/

theorem ascii_author_ph :
    ascii "%(author_date_timestamp)i" =
      37 :: 40 :: (ascii "author_date_timestamp" ++ [41, 105]) := by decide

theorem ascii_committer_ph :
    ascii "%(committer_date_timestamp)i" =
      37 :: 40 :: (ascii "committer_date_timestamp" ++ [41, 105]) := by decide

theorem newValsLookup_author (a c : Int) :
    newValsLookup a c (ascii "author_date_timestamp") = some a := by
  rw [newValsLookup, if_pos rfl]

theorem newValsLookup_committer (a c : Int) :
    newValsLookup a c (ascii "committer_date_timestamp") = some c := by
  rw [newValsLookup, if_neg (by decide), if_pos rfl]

theorem segok_ph_author (a c : Int) :
    SegOK (newValsLookup a c) (ascii "%(author_date_timestamp)i") (intBytes a) := by
  rw [ascii_author_ph]
  exact SegOK.placeholder (by decide) (newValsLookup_author a c)

theorem segok_ph_committer (a c : Int) :
    SegOK (newValsLookup a c) (ascii "%(committer_date_timestamp)i") (intBytes c) := by
  rw [ascii_committer_ph]
  exact SegOK.placeholder (by decide) (newValsLookup_committer a c)

theorem forall2_segok_esc (vals : List Nat → Option Int) (rs : List (List Nat)) :
    List.Forall₂ (SegOK vals) (rs.map escapePercent) rs := by
  induction rs with
  | nil => exact List.Forall₂.nil
  | cons r rs ih => exact List.Forall₂.cons (SegOK.esc vals r) ih

/-! ### List decomposition helpers -/

theorem exists_last_two {α : Type} (l : List α) (h : 2 ≤ l.length) :
    ∃ l₁ x y, l = l₁ ++ [x, y] := by
  induction l with
  | nil => simp at h
  | cons a t ih =>
    cases t with
    | nil => simp at h
    | cons b u =>
      cases u with
      | nil => exact ⟨[], a, b, rfl⟩
      | cons c2 v2 =>
        obtain ⟨l₁, x, y, hxy⟩ := ih (by simp)
        exact ⟨a :: l₁, x, y, by rw [List.cons_append, ← hxy]⟩

theorem set_append_two {α : Type} (l₁ : List α) (x y p : α) :
    (l₁ ++ [x, y]).set l₁.length p = l₁ ++ [p, y] := by
  induction l₁ with
  | nil => rfl
  | cons a t ih =>
    rw [List.cons_append, List.length_cons, List.set_cons_succ, ih, List.cons_append]

theorem get2_append_two {α : Type} (l₁ : List α) (x y : α) :
    (l₁ ++ [x, y]).get? l₁.length = some x ∧
    (l₁ ++ [x, y]).get? (l₁.length + 1) = some y := by
  induction l₁ with
  | nil => exact ⟨rfl, rfl⟩
  | cons a t ih => simpa using ih

/-! ### Structure of `commit_line_to_format` on each kind of line -/

theorem isAuthorLine_iff (l : List Nat) :
    isAuthorLine l = true ↔ (splitByte 32 (escapePercent l)).headD [] = ascii "author" := by
  simp [isAuthorLine]

theorem isCommitterLine_iff (l : List Nat) :
    isCommitterLine l = true ↔
      (splitByte 32 (escapePercent l)).headD [] = ascii "committer" := by
  simp [isCommitterLine]

theorem committer_not_author {l : List Nat} (hc : isCommitterLine l = true) :
    isAuthorLine l = false := by
  have h := (isCommitterLine_iff l).mp hc
  by_contra hfalse
  have ha := (isAuthorLine_iff l).mp (by revert hfalse; cases isAuthorLine l <;> simp)
  rw [h] at ha
  exact absurd ha (by decide)

theorem commit_line_author {l : List Nat} {v : AggregateValues} {fl : List Nat}
    {v' : AggregateValues}
    (ha : isAuthorLine l = true)
    (h : commit_line_to_format l v = some (fl, v')) :
    ∃ rs₁ tsw tz ts,
      splitByte 32 l = rs₁ ++ [tsw, tz] ∧
      pyInt (escapePercent tsw) = some ts ∧
      fl = joinByte 32 ((rs₁.map escapePercent) ++
            [ascii "%(author_date_timestamp)i", escapePercent tz]) ∧
      v' = { v with author_date_timestamp := some ts,
                    author_date_tz := some (escapePercent tz) } ∧
      lineTimestamp l = some ts ∧ lineLastWord l = some (escapePercent tz) := by
  have hhead := (isAuthorLine_iff l).mp ha
  simp only [commit_line_to_format, if_pos hhead] at h
  by_cases hlen : (splitByte 32 (escapePercent l)).length < 2
  · rw [if_pos hlen] at h; exact absurd h (by simp)
  · rw [if_neg hlen] at h
    have hlen2 : 2 ≤ (splitByte 32 (escapePercent l)).length := by omega
    have hesc := splitByte_escape l
    have hlenraw : 2 ≤ (splitByte 32 l).length := by
      rw [hesc] at hlen2; simpa using hlen2
    obtain ⟨rs₁, tsw, tz, hdecomp⟩ := exists_last_two _ hlenraw
    have hw : splitByte 32 (escapePercent l) =
        (rs₁.map escapePercent) ++ [escapePercent tsw, escapePercent tz] := by
      rw [hesc, hdecomp]; simp
    have hlenw : (splitByte 32 (escapePercent l)).length = rs₁.length + 2 := by
      rw [hw]; simp
    have hget : (splitByte 32 (escapePercent l)).get?
        ((splitByte 32 (escapePercent l)).length - 2) = some (escapePercent tsw) := by
      rw [hlenw, hw]
      have h1 := (get2_append_two (rs₁.map escapePercent)
        (escapePercent tsw) (escapePercent tz)).1
      simpa using h1
    have hget1 : (splitByte 32 (escapePercent l)).get?
        ((splitByte 32 (escapePercent l)).length - 1) = some (escapePercent tz) := by
      rw [hlenw, hw]
      have h2 := (get2_append_two (rs₁.map escapePercent)
        (escapePercent tsw) (escapePercent tz)).2
      simpa using h2
    rw [hget, hget1] at h
    simp only [Option.getD_some] at h
    cases hts : pyInt (escapePercent tsw) with
    | none => rw [hts] at h; exact absurd h (by simp)
    | some ts =>
      rw [hts] at h
      simp only [Option.some.injEq, Prod.mk.injEq] at h
      obtain ⟨hfl, hv⟩ := h
      refine ⟨rs₁, tsw, tz, ts, hdecomp, hts, ?_, hv.symm, ?_, ?_⟩
      · rw [← hfl]
        congr 1
        rw [hlenw, hw]
        have hset := set_append_two (rs₁.map escapePercent) (escapePercent tsw)
          (escapePercent tz) (ascii "%(author_date_timestamp)i")
        simp only [List.length_map] at hset
        simp [hset]
      · rw [lineTimestamp, if_neg hlen, hget]
        simp [hts]
      · rw [lineLastWord, if_neg hlen, hget1]

theorem not_author_head {l : List Nat} (ha : isAuthorLine l = false) :
    ¬ (splitByte 32 (escapePercent l)).headD [] = ascii "author" := by
  intro h
  have := (isAuthorLine_iff l).mpr h
  rw [this] at ha
  simp at ha

theorem not_committer_head {l : List Nat} (hc : isCommitterLine l = false) :
    ¬ (splitByte 32 (escapePercent l)).headD [] = ascii "committer" := by
  intro h
  have := (isCommitterLine_iff l).mpr h
  rw [this] at hc
  simp at hc

theorem commit_line_committer {l : List Nat} {v : AggregateValues} {fl : List Nat}
    {v' : AggregateValues}
    (hc : isCommitterLine l = true)
    (h : commit_line_to_format l v = some (fl, v')) :
    ∃ rs₁ tsw tz ts,
      splitByte 32 l = rs₁ ++ [tsw, tz] ∧
      pyInt (escapePercent tsw) = some ts ∧
      fl = joinByte 32 ((rs₁.map escapePercent) ++
            [ascii "%(committer_date_timestamp)i", escapePercent tz]) ∧
      v' = { v with committer_date_timestamp := some ts,
                    committer_date_tz := some (escapePercent tz) } ∧
      lineTimestamp l = some ts ∧ lineLastWord l = some (escapePercent tz) := by
  have hhead := (isCommitterLine_iff l).mp hc
  have hnota := not_author_head (committer_not_author hc)
  simp only [commit_line_to_format, if_neg hnota, if_pos hhead] at h
  by_cases hlen : (splitByte 32 (escapePercent l)).length < 2
  · rw [if_pos hlen] at h; exact absurd h (by simp)
  · rw [if_neg hlen] at h
    have hlen2 : 2 ≤ (splitByte 32 (escapePercent l)).length := by omega
    have hesc := splitByte_escape l
    have hlenraw : 2 ≤ (splitByte 32 l).length := by
      rw [hesc] at hlen2; simpa using hlen2
    obtain ⟨rs₁, tsw, tz, hdecomp⟩ := exists_last_two _ hlenraw
    have hw : splitByte 32 (escapePercent l) =
        (rs₁.map escapePercent) ++ [escapePercent tsw, escapePercent tz] := by
      rw [hesc, hdecomp]; simp
    have hlenw : (splitByte 32 (escapePercent l)).length = rs₁.length + 2 := by
      rw [hw]; simp
    have hget : (splitByte 32 (escapePercent l)).get?
        ((splitByte 32 (escapePercent l)).length - 2) = some (escapePercent tsw) := by
      rw [hlenw, hw]
      have h1 := (get2_append_two (rs₁.map escapePercent)
        (escapePercent tsw) (escapePercent tz)).1
      simpa using h1
    have hget1 : (splitByte 32 (escapePercent l)).get?
        ((splitByte 32 (escapePercent l)).length - 1) = some (escapePercent tz) := by
      rw [hlenw, hw]
      have h2 := (get2_append_two (rs₁.map escapePercent)
        (escapePercent tsw) (escapePercent tz)).2
      simpa using h2
    rw [hget, hget1] at h
    simp only [Option.getD_some] at h
    cases hts : pyInt (escapePercent tsw) with
    | none => rw [hts] at h; exact absurd h (by simp)
    | some ts =>
      rw [hts] at h
      simp only [Option.some.injEq, Prod.mk.injEq] at h
      obtain ⟨hfl, hv⟩ := h
      refine ⟨rs₁, tsw, tz, ts, hdecomp, hts, ?_, hv.symm, ?_, ?_⟩
      · rw [← hfl]
        congr 1
        rw [hlenw, hw]
        have hset := set_append_two (rs₁.map escapePercent) (escapePercent tsw)
          (escapePercent tz) (ascii "%(committer_date_timestamp)i")
        simp only [List.length_map] at hset
        simp [hset]
      · rw [lineTimestamp, if_neg hlen, hget]
        simp [hts]
      · rw [lineLastWord, if_neg hlen, hget1]

theorem commit_line_other {l : List Nat} {v : AggregateValues} {fl : List Nat}
    {v' : AggregateValues}
    (ha : isAuthorLine l = false) (hc : isCommitterLine l = false)
    (h : commit_line_to_format l v = some (fl, v')) :
    fl = escapePercent l ∧ v' = v := by
  simp only [commit_line_to_format, if_neg (not_author_head ha),
    if_neg (not_committer_head hc), Option.some.injEq, Prod.mk.injEq] at h
  obtain ⟨hfl, hv⟩ := h
  exact ⟨by rw [← hfl, joinByte_splitByte], hv.symm⟩

/-! ### Threading the aggregate values through the lines -/

theorem processLines_cons_elim {l : List Nat} {ls : List (List Nat)} {v : AggregateValues}
    {fls : List (List Nat)} {v' : AggregateValues}
    (h : processLines (l :: ls) v = some (fls, v')) :
    ∃ fl v1 fls', commit_line_to_format l v = some (fl, v1) ∧
      processLines ls v1 = some (fls', v') ∧ fls = fl :: fls' := by
  rw [processLines] at h
  split at h
  · exact absurd h (by simp)
  · rename_i fl v1 heq1
    split at h
    · exact absurd h (by simp)
    · rename_i fls2 v2 heq2
      simp only [Option.some.injEq, Prod.mk.injEq] at h
      exact ⟨fl, v1, fls2, heq1, by rw [heq2, h.2], h.1.symm⟩

theorem processLines_no_author {ls : List (List Nat)} {v : AggregateValues}
    {fls : List (List Nat)} {v' : AggregateValues}
    (h : processLines ls v = some (fls, v'))
    (hn : ∀ l ∈ ls, isAuthorLine l = false) :
    v'.author_date_timestamp = v.author_date_timestamp ∧
    v'.author_date_tz = v.author_date_tz := by
  induction ls generalizing v fls with
  | nil =>
    rw [processLines] at h
    simp only [Option.some.injEq, Prod.mk.injEq] at h
    rw [← h.2]
    exact ⟨rfl, rfl⟩
  | cons l0 ls ih =>
    obtain ⟨fl, v1, fls', h1, h2, rfl⟩ := processLines_cons_elim h
    have ha0 : isAuthorLine l0 = false := hn l0 (by simp)
    have hstep : v1.author_date_timestamp = v.author_date_timestamp ∧
        v1.author_date_tz = v.author_date_tz := by
      by_cases hc0 : isCommitterLine l0 = true
      · obtain ⟨_, _, _, _, _, _, _, hv1, _, _⟩ := commit_line_committer hc0 h1
        rw [hv1]
        exact ⟨rfl, rfl⟩
      · obtain ⟨_, hv1⟩ := commit_line_other ha0 (by revert hc0; cases isCommitterLine l0 <;> simp) h1
        rw [hv1]
        exact ⟨rfl, rfl⟩
    have hrest := ih h2 (fun l hl => hn l (by simp [hl]))
    exact ⟨hrest.1.trans hstep.1, hrest.2.trans hstep.2⟩

theorem processLines_no_committer {ls : List (List Nat)} {v : AggregateValues}
    {fls : List (List Nat)} {v' : AggregateValues}
    (h : processLines ls v = some (fls, v'))
    (hn : ∀ l ∈ ls, isCommitterLine l = false) :
    v'.committer_date_timestamp = v.committer_date_timestamp ∧
    v'.committer_date_tz = v.committer_date_tz := by
  induction ls generalizing v fls with
  | nil =>
    rw [processLines] at h
    simp only [Option.some.injEq, Prod.mk.injEq] at h
    rw [← h.2]
    exact ⟨rfl, rfl⟩
  | cons l0 ls ih =>
    obtain ⟨fl, v1, fls', h1, h2, rfl⟩ := processLines_cons_elim h
    have hc0 : isCommitterLine l0 = false := hn l0 (by simp)
    have hstep : v1.committer_date_timestamp = v.committer_date_timestamp ∧
        v1.committer_date_tz = v.committer_date_tz := by
      by_cases ha0 : isAuthorLine l0 = true
      · obtain ⟨_, _, _, _, _, _, _, hv1, _, _⟩ := commit_line_author ha0 h1
        rw [hv1]
        exact ⟨rfl, rfl⟩
      · obtain ⟨_, hv1⟩ := commit_line_other (by revert ha0; cases isAuthorLine l0 <;> simp) hc0 h1
        rw [hv1]
        exact ⟨rfl, rfl⟩
    have hrest := ih h2 (fun l hl => hn l (by simp [hl]))
    exact ⟨hrest.1.trans hstep.1, hrest.2.trans hstep.2⟩

theorem processLines_author_val {ls : List (List Nat)} {v : AggregateValues}
    {fls : List (List Nat)} {v' : AggregateValues}
    (h : processLines ls v = some (fls, v'))
    (hcount : ls.countP isAuthorLine ≤ 1) :
    ∀ l ∈ ls, isAuthorLine l = true →
      v'.author_date_timestamp = lineTimestamp l ∧ v'.author_date_tz = lineLastWord l := by
  induction ls generalizing v fls with
  | nil => intro l hl; simp at hl
  | cons l0 ls ih =>
    obtain ⟨fl, v1, fls', h1, h2, rfl⟩ := processLines_cons_elim h
    intro l hl hauth
    rcases List.mem_cons.mp hl with rfl | hmem
    · have hcc : (l :: ls).countP isAuthorLine = ls.countP isAuthorLine + 1 := by
        simp [List.countP_cons, hauth]
      have hc0 : ls.countP isAuthorLine = 0 := by omega
      have hrest : ∀ x ∈ ls, isAuthorLine x = false := by
        intro x hx
        by_contra hbx
        have hpos : 0 < ls.countP isAuthorLine :=
          List.countP_pos_iff.mpr ⟨x, hx, by revert hbx; cases isAuthorLine x <;> simp⟩
        omega
      obtain ⟨hts, htz⟩ := processLines_no_author h2 hrest
      obtain ⟨rs₁, tsw, tz, ts, _, _, _, hv1, hlt, hlw⟩ := commit_line_author hauth h1
      rw [hts, htz, hv1, hlt, hlw]
      exact ⟨rfl, rfl⟩
    · have hc' : ls.countP isAuthorLine ≤ 1 := by
        rw [List.countP_cons] at hcount
        omega
      exact ih h2 hc' l hmem hauth

theorem processLines_committer_val {ls : List (List Nat)} {v : AggregateValues}
    {fls : List (List Nat)} {v' : AggregateValues}
    (h : processLines ls v = some (fls, v'))
    (hcount : ls.countP isCommitterLine ≤ 1) :
    ∀ l ∈ ls, isCommitterLine l = true →
      v'.committer_date_timestamp = lineTimestamp l ∧
      v'.committer_date_tz = lineLastWord l := by
  induction ls generalizing v fls with
  | nil => intro l hl; simp at hl
  | cons l0 ls ih =>
    obtain ⟨fl, v1, fls', h1, h2, rfl⟩ := processLines_cons_elim h
    intro l hl hcomm
    rcases List.mem_cons.mp hl with rfl | hmem
    · have hcc : (l :: ls).countP isCommitterLine = ls.countP isCommitterLine + 1 := by
        simp [List.countP_cons, hcomm]
      have hc0 : ls.countP isCommitterLine = 0 := by omega
      have hrest : ∀ x ∈ ls, isCommitterLine x = false := by
        intro x hx
        by_contra hbx
        have hpos : 0 < ls.countP isCommitterLine :=
          List.countP_pos_iff.mpr ⟨x, hx, by revert hbx; cases isCommitterLine x <;> simp⟩
        omega
      obtain ⟨hts, htz⟩ := processLines_no_committer h2 hrest
      obtain ⟨rs₁, tsw, tz, ts, _, _, _, hv1, hlt, hlw⟩ := commit_line_committer hcomm h1
      rw [hts, htz, hv1, hlt, hlw]
      exact ⟨rfl, rfl⟩
    · have hc' : ls.countP isCommitterLine ≤ 1 := by
        rw [List.countP_cons] at hcount
        omega
      exact ih h2 hc' l hmem hcomm

/-! ### Canonical lines and the round trip -/

theorem append_two_inj {α : Type} {l₁ l₁' : List α} {x y x' y' : α}
    (h : l₁ ++ [x, y] = l₁' ++ [x', y']) : l₁ = l₁' ∧ x = x' ∧ y = y' := by
  have hlen : l₁.length = l₁'.length := by
    have hl := congrArg List.length h
    simp at hl
    omega
  obtain ⟨h1, h2⟩ := List.append_inj h hlen
  simp only [List.cons.injEq, and_true] at h2
  exact ⟨h1, h2.1, h2.2⟩

theorem lineCanonical_elim {l : List Nat}
    (hac : (isAuthorLine l || isCommitterLine l) = true)
    (hcan : lineCanonical l = true) :
    ∃ rs₁ tsw tz ts, splitByte 32 l = rs₁ ++ [tsw, tz] ∧
      pyInt (escapePercent tsw) = some ts ∧ intBytes ts = tsw ∧
      lineTimestamp l = some ts ∧ lineLastWord l = some (escapePercent tz) := by
  rw [lineCanonical, if_pos hac] at hcan
  by_cases hlen : (splitByte 32 l).length < 2
  · rw [if_pos hlen] at hcan
    simp at hcan
  · rw [if_neg hlen] at hcan
    have hlenraw : 2 ≤ (splitByte 32 l).length := by omega
    obtain ⟨rs₁, tsw, tz, hdecomp⟩ := exists_last_two _ hlenraw
    have hget : (splitByte 32 l).get? ((splitByte 32 l).length - 2) = some tsw := by
      rw [hdecomp]
      have h1 := (get2_append_two rs₁ tsw tz).1
      have : (rs₁ ++ [tsw, tz]).length - 2 = rs₁.length := by simp
      rw [this]
      exact h1
    rw [hget] at hcan
    simp only [Option.getD_some] at hcan
    cases hts : pyInt (escapePercent tsw) with
    | none => rw [hts] at hcan; simp at hcan
    | some ts =>
      rw [hts] at hcan
      have hcaneq : intBytes ts = tsw := by
        simpa using hcan
      refine ⟨rs₁, tsw, tz, ts, hdecomp, hts, hcaneq, ?_, ?_⟩
      · have hesc := splitByte_escape l
        have hlenw : (splitByte 32 (escapePercent l)).length = (splitByte 32 l).length := by
          rw [hesc]; simp
        have hlen2 : ¬ (splitByte 32 (escapePercent l)).length < 2 := by omega
        rw [lineTimestamp, if_neg hlen2]
        have hgetw : (splitByte 32 (escapePercent l)).get?
            ((splitByte 32 (escapePercent l)).length - 2) = some (escapePercent tsw) := by
          rw [hesc, hdecomp]
          have h1 := (get2_append_two (rs₁.map escapePercent)
            (escapePercent tsw) (escapePercent tz)).1
          have hmap : (List.map escapePercent (rs₁ ++ [tsw, tz])) =
              rs₁.map escapePercent ++ [escapePercent tsw, escapePercent tz] := by simp
          rw [hmap]
          have : (rs₁.map escapePercent ++ [escapePercent tsw, escapePercent tz]).length - 2 =
              (rs₁.map escapePercent).length := by simp
          rw [this]
          exact h1
        rw [hgetw]
        simp [hts]
      · have hesc := splitByte_escape l
        have hlenw : (splitByte 32 (escapePercent l)).length = (splitByte 32 l).length := by
          rw [hesc]; simp
        have hlen2 : ¬ (splitByte 32 (escapePercent l)).length < 2 := by omega
        rw [lineLastWord, if_neg hlen2]
        rw [hesc, hdecomp]
        have h2 := (get2_append_two (rs₁.map escapePercent)
          (escapePercent tsw) (escapePercent tz)).2
        have hmap : (List.map escapePercent (rs₁ ++ [tsw, tz])) =
            rs₁.map escapePercent ++ [escapePercent tsw, escapePercent tz] := by simp
        rw [hmap]
        have : (rs₁.map escapePercent ++ [escapePercent tsw, escapePercent tz]).length - 1 =
            (rs₁.map escapePercent).length + 1 := by simp
        rw [this]
        exact h2

theorem segok_processLines {ls : List (List Nat)} {v : AggregateValues}
    {fls : List (List Nat)} {v' : AggregateValues}
    (h : processLines ls v = some (fls, v')) (x y : Int) :
    ∃ outs, List.Forall₂ (SegOK (newValsLookup x y)) fls outs ∧
      ((∀ l ∈ ls, lineCanonical l = true) →
       (∀ l ∈ ls, isAuthorLine l = true → lineTimestamp l = some x) →
       (∀ l ∈ ls, isCommitterLine l = true → lineTimestamp l = some y) →
       outs = ls) := by
  induction ls generalizing v fls with
  | nil =>
    rw [processLines] at h
    simp only [Option.some.injEq, Prod.mk.injEq] at h
    rw [← h.1]
    exact ⟨[], List.Forall₂.nil, fun _ _ _ => rfl⟩
  | cons l0 ls ih =>
    obtain ⟨fl, v1, fls', h1, h2, rfl⟩ := processLines_cons_elim h
    obtain ⟨outs', hf', hcan'⟩ := ih h2
    by_cases ha : isAuthorLine l0 = true
    · obtain ⟨rs₁, tsw, tz, ts, hdecomp, hts, hfl, hv1, hlt, hlw⟩ := commit_line_author ha h1
      refine ⟨joinByte 32 (rs₁ ++ [intBytes x, tz]) :: outs', ?_, ?_⟩
      · refine List.Forall₂.cons ?_ hf'
        rw [hfl]
        refine SegOK.joinSep (by decide) ?_
        refine List.rel_append (forall2_segok_esc _ rs₁) ?_
        exact List.Forall₂.cons (segok_ph_author x y)
          (List.Forall₂.cons (SegOK.esc _ tz) List.Forall₂.nil)
      · intro hcanAll hA hC
        have houts : outs' = ls := hcan' (fun l hl => hcanAll l (by simp [hl]))
          (fun l hl hx => hA l (by simp [hl]) hx) (fun l hl hx => hC l (by simp [hl]) hx)
        rw [houts]
        obtain ⟨rs₁', tsw', tz', ts', hdecomp', _, hcaneq', hlt', _⟩ :=
          lineCanonical_elim (by rw [ha]; rfl) (hcanAll l0 (by simp))
        obtain ⟨he1, he2, he3⟩ := append_two_inj (hdecomp ▸ hdecomp')
        have hx0 : x = ts := by
          have := hA l0 (by simp) ha
          rw [hlt] at this
          exact (Option.some.injEq _ _ ▸ this).symm
        have hts'eq : ts' = ts := by
          rw [hlt] at hlt'
          exact (Option.some.inj hlt').symm
        have : intBytes x = tsw := by
          rw [hx0, ← hts'eq, hcaneq', he2]
        rw [this, ← hdecomp, joinByte_splitByte]
    · by_cases hc : isCommitterLine l0 = true
      · obtain ⟨rs₁, tsw, tz, ts, hdecomp, hts, hfl, hv1, hlt, hlw⟩ :=
          commit_line_committer hc h1
        refine ⟨joinByte 32 (rs₁ ++ [intBytes y, tz]) :: outs', ?_, ?_⟩
        · refine List.Forall₂.cons ?_ hf'
          rw [hfl]
          refine SegOK.joinSep (by decide) ?_
          refine List.rel_append (forall2_segok_esc _ rs₁) ?_
          exact List.Forall₂.cons (segok_ph_committer x y)
            (List.Forall₂.cons (SegOK.esc _ tz) List.Forall₂.nil)
        · intro hcanAll hA hC
          have houts : outs' = ls := hcan' (fun l hl => hcanAll l (by simp [hl]))
            (fun l hl hx => hA l (by simp [hl]) hx) (fun l hl hx => hC l (by simp [hl]) hx)
          rw [houts]
          obtain ⟨rs₁', tsw', tz', ts', hdecomp', _, hcaneq', hlt', _⟩ :=
            lineCanonical_elim (by rw [hc]; simp) (hcanAll l0 (by simp))
          obtain ⟨he1, he2, he3⟩ := append_two_inj (hdecomp ▸ hdecomp')
          have hy0 : y = ts := by
            have := hC l0 (by simp) hc
            rw [hlt] at this
            exact (Option.some.injEq _ _ ▸ this).symm
          have hts'eq : ts' = ts := by
            rw [hlt] at hlt'
            exact (Option.some.inj hlt').symm
          have : intBytes y = tsw := by
            rw [hy0, ← hts'eq, hcaneq', he2]
          rw [this, ← hdecomp, joinByte_splitByte]
      · have ha' : isAuthorLine l0 = false := by revert ha; cases isAuthorLine l0 <;> simp
        have hc' : isCommitterLine l0 = false := by revert hc; cases isCommitterLine l0 <;> simp
        obtain ⟨hfl, hv1⟩ := commit_line_other ha' hc' h1
        refine ⟨l0 :: outs', ?_, ?_⟩
        · refine List.Forall₂.cons ?_ hf'
          rw [hfl]
          exact SegOK.esc _ l0
        · intro hcanAll hA hC
          have houts : outs' = ls := hcan' (fun l hl => hcanAll l (by simp [hl]))
            (fun l hl hx => hA l (by simp [hl]) hx) (fun l hl hx => hC l (by simp [hl]) hx)
          rw [houts]

theorem commit_to_format_elim {commit fmt : List Nat} {v : AggregateValues}
    (h : commit_to_format commit = some (fmt, v)) :
    ∃ fls, processLines (splitByte 10 commit) {} = some (fls, v) ∧
      fmt = joinByte 10 fls := by
  rw [commit_to_format] at h
  cases hp : processLines (splitByte 10 commit) {} with
  | none => rw [hp] at h; exact absurd h (by simp)
  | some q =>
    obtain ⟨fls, v2⟩ := q
    rw [hp] at h
    simp only [Option.map_some', Option.some.injEq, Prod.mk.injEq] at h
    exact ⟨fls, by rw [h.2], h.1.symm⟩

/-- Instantiating the template with any two integer values succeeds, and, when
the commit's timestamp fields are canonical and the values are the extracted
ones, reproduces the commit. -/
theorem pyFmt_commit_to_format {commit fmt : List Nat} {v : AggregateValues}
    (h : commit_to_format commit = some (fmt, v)) (x y : Int) :
    ∃ out, pyFmtNamed (newValsLookup x y) fmt = some out ∧
      ((∀ l ∈ splitByte 10 commit, lineCanonical l = true) →
       (∀ l ∈ splitByte 10 commit, isAuthorLine l = true → lineTimestamp l = some x) →
       (∀ l ∈ splitByte 10 commit, isCommitterLine l = true → lineTimestamp l = some y) →
       out = commit) := by
  obtain ⟨fls, hp, hfmt⟩ := commit_to_format_elim h
  obtain ⟨outs, hf, hcan⟩ := segok_processLines hp x y
  have hjoin := SegOK.joinSep (s := 10) (by decide) hf
  refine ⟨joinByte 10 outs, ?_, ?_⟩
  · have hj := hjoin []
    rw [List.append_nil] at hj
    rw [pyFmtNamed, hfmt, hj]
    simp [pyFmtGo]
  · intro h1 h2 h3
    rw [hcan h1 h2 h3]
    exact joinByte_splitByte 10 commit

/-- Unpack `canonicalCommit`: the commit parses, both timestamp/timezone pairs
are present, and instantiating the template with the extracted timestamps
reproduces the commit byte-for-byte. -/
theorem canonical_parse {commit : List Nat} (h : canonicalCommit commit = true) :
    ∃ fmt v a c, commit_to_format commit = some (fmt, v) ∧
      v.author_date_timestamp = some a ∧ v.committer_date_timestamp = some c ∧
      v.author_date_tz.isSome = true ∧ v.committer_date_tz.isSome = true ∧
      pyFmtNamed (newValsLookup a c) fmt = some commit := by
  rw [canonicalCommit] at h
  simp only [Bool.and_eq_true, claimWellFormed, beq_iff_eq, List.all_eq_true] at h
  obtain ⟨⟨⟨⟨hwfA, hwfC⟩, _⟩, hcanAll⟩, hsome⟩ := h
  cases hcf : commit_to_format commit with
  | none => rw [hcf] at hsome; simp at hsome
  | some p =>
    obtain ⟨fmt, v⟩ := p
    obtain ⟨fls, hp, hfmt⟩ := commit_to_format_elim hcf
    obtain ⟨la, hla, hlaA⟩ := List.countP_pos_iff.mp
      (by rw [hwfA]; exact Nat.zero_lt_one : 0 < (splitByte 10 commit).countP isAuthorLine)
    obtain ⟨lc, hlc, hlcC⟩ := List.countP_pos_iff.mp
      (by rw [hwfC]; exact Nat.zero_lt_one : 0 < (splitByte 10 commit).countP isCommitterLine)
    have hAval := processLines_author_val hp (by omega)
    have hCval := processLines_committer_val hp (by omega)
    obtain ⟨_, _, _, a, _, _, _, hlta, hlwa⟩ :=
      lineCanonical_elim (l := la) (by rw [hlaA]; rfl) (hcanAll la hla)
    obtain ⟨_, _, _, c, _, _, _, hltc, hlwc⟩ :=
      lineCanonical_elim (l := lc) (by rw [hlcC]; simp) (hcanAll lc hlc)
    have hva : v.author_date_timestamp = some a := by
      rw [(hAval la hla hlaA).1, hlta]
    have hvc : v.committer_date_timestamp = some c := by
      rw [(hCval lc hlc hlcC).1, hltc]
    have hvaz : v.author_date_tz.isSome = true := by
      rw [(hAval la hla hlaA).2, hlwa]; rfl
    have hvcz : v.committer_date_tz.isSome = true := by
      rw [(hCval lc hlc hlcC).2, hlwc]; rfl
    obtain ⟨out, hout, houtEq⟩ := pyFmt_commit_to_format hcf a c
    have hA2 : ∀ l ∈ splitByte 10 commit, isAuthorLine l = true → lineTimestamp l = some a := by
      intro l hl hx
      rw [← (hAval l hl hx).1, hva]
    have hC2 : ∀ l ∈ splitByte 10 commit, isCommitterLine l = true →
        lineTimestamp l = some c := by
      intro l hl hx
      rw [← (hCval l hl hx).1, hvc]
    refine ⟨fmt, v, a, c, rfl, hva, hvc, hvaz, hvcz, ?_⟩
    rw [hout, houtEq hcanAll hA2 hC2]

/-- The core round-trip: canonical commits reproduce themselves. -/
theorem roundTrip_core {commit : List Nat} (h : canonicalCommit commit = true) :
    roundTrips commit = true := by
  obtain ⟨fmt, v, a, c, hcf, ha, hc, _, _, hfmt⟩ := canonical_parse h
  simp only [roundTrips, hcf, ha, hc, hfmt]
  simp

/-! ### The positional formats used by the script -/

theorem fmt_ts_tz_eq (ts : Int) (tz : List Nat) :
    fmt_ts_tz ts tz = intBytes ts ++ 32 :: tz := by
  have hlit : ascii "%i %s" = [37, 105, 32, 37, 115] := by decide
  rw [fmt_ts_tz, pyFmtPos, hlit]
  simp [pyFmtPosGo]

theorem git_commit_hash_eq (commit : List Nat) :
    git_commit_hash commit =
      sha1Hex (ascii "commit " ++ intBytes (commit.length : Int) ++ 0 :: commit) := by
  have hlit : ascii "commit %i\x00%s" =
      [99, 111, 109, 109, 105, 116, 32, 37, 105, 0, 37, 115] := by decide
  rw [git_commit_hash, pyFmtPos, hlit]
  have hlit2 : ascii "commit " = [99, 111, 109, 109, 105, 116, 32] := by decide
  rw [hlit2]
  simp [pyFmtPosGo]

theorem hexFixed_length (k n : Nat) : (hexFixed k n).length = k := by
  induction k generalizing n with
  | zero => rfl
  | succ k ih => simp [hexFixed, ih]

theorem hexFixed_all_hexLower (k n : Nat) : (hexFixed k n).all hexLower = true := by
  induction k generalizing n with
  | zero => rfl
  | succ k ih =>
    rw [hexFixed, List.all_append, ih]
    have hd : n % 16 < 16 := Nat.mod_lt _ (by omega)
    have hball : ∀ d, d < 16 → hexLower (hexDigit d) = true := by decide
    simp [hball _ hd]

theorem sha1Hex_shape (msg : List Nat) :
    (sha1Hex msg).length = 40 ∧ (sha1Hex msg).all hexLower = true := by
  simp only [sha1Hex]
  rcases hfold : (sha1Chunks (sha1Pad msg).length (sha1Pad msg)).foldl sha1Block
      (1732584193, 4023233417, 2562383102, 271733878, 3285377520) with ⟨h0, h1, h2, h3, h4⟩
  constructor
  · simp [hex8, hexFixed_length]
  · simp [hex8, List.all_append, hexFixed_all_hexLower]

/-! ### Characterizing the search loop -/

theorem matchesAt_eq_of_cand {fmt : List Nat} {oldA oldC : Int} {pfx : List Nat}
    {c a : Nat} {m : List Nat} (h : candAt fmt oldA oldC c a = some m) :
    matchesAt fmt oldA oldC pfx c a = List.isPrefixOf pfx (git_commit_hash m) := by
  simp [matchesAt, h]

theorem proposalOf_ne_invalid (tzC tzA : Option (List Nat)) (newC newA : Int) :
    proposalOf tzC tzA newC newA ≠ .invalidPfx := by
  cases tzC <;> cases tzA <;> simp [proposalOf]

theorem proposalOf_ne_exhausted (tzC tzA : Option (List Nat)) (newC newA : Int) :
    proposalOf tzC tzA newC newA ≠ .exhausted := by
  cases tzC <;> cases tzA <;> simp [proposalOf]

theorem searchLoop_nil (fmt : List Nat) (oldA oldC : Int) (tzA tzC : Option (List Nat))
    (pfx : List Nat) : searchLoop fmt oldA oldC tzA tzC pfx [] = .exhausted := rfl

theorem searchLoop_cons_some {fmt : List Nat} {oldA oldC : Int}
    {tzA tzC : Option (List Nat)} {pfx : List Nat} {c a : Nat} {rest : List (Nat × Nat)}
    {m : List Nat} (h : candAt fmt oldA oldC c a = some m) :
    searchLoop fmt oldA oldC tzA tzC pfx ((c, a) :: rest) =
      if List.isPrefixOf pfx (git_commit_hash m) then
        if a == 0 && c == 0 then .noOp
        else proposalOf tzC tzA (oldC + (c : Int)) (oldA + (a : Int))
      else searchLoop fmt oldA oldC tzA tzC pfx rest := by
  simp [searchLoop, h]

theorem searchLoop_cons_none {fmt : List Nat} {oldA oldC : Int}
    {tzA tzC : Option (List Nat)} {pfx : List Nat} {c a : Nat} {rest : List (Nat × Nat)}
    (h : candAt fmt oldA oldC c a = none) :
    searchLoop fmt oldA oldC tzA tzC pfx ((c, a) :: rest) = .formatFailed := by
  simp [searchLoop, h]

theorem searchLoop_ne_invalid (fmt : List Nat) (oldA oldC : Int) (tzA tzC : Option (List Nat))
    (pfx : List Nat) (L : List (Nat × Nat)) :
    searchLoop fmt oldA oldC tzA tzC pfx L ≠ .invalidPfx := by
  induction L with
  | nil => rw [searchLoop_nil]; simp
  | cons p rest ih =>
    obtain ⟨c, a⟩ := p
    cases hc : candAt fmt oldA oldC c a with
    | none => rw [searchLoop_cons_none hc]; simp
    | some m =>
      rw [searchLoop_cons_some hc]
      split
      · split
        · simp
        · exact proposalOf_ne_invalid tzC tzA _ _
      · exact ih

theorem searchLoop_exhausted_iff {fmt : List Nat} {oldA oldC : Int}
    {tzA tzC : Option (List Nat)} {pfx : List Nat} {L : List (Nat × Nat)}
    (hc : ∀ p ∈ L, (candAt fmt oldA oldC p.1 p.2).isSome = true) :
    (searchLoop fmt oldA oldC tzA tzC pfx L = .exhausted ↔
      ∀ p ∈ L, matchesAt fmt oldA oldC pfx p.1 p.2 = false) := by
  induction L with
  | nil => rw [searchLoop_nil]; simp
  | cons p rest ih =>
    obtain ⟨c, a⟩ := p
    have hcand := hc (c, a) (by simp)
    cases hm : candAt fmt oldA oldC c a with
    | none => rw [hm] at hcand; simp at hcand
    | some m =>
      rw [searchLoop_cons_some hm]
      have hmatch := @matchesAt_eq_of_cand fmt oldA oldC pfx c a m hm
      by_cases hpf : List.isPrefixOf pfx (git_commit_hash m) = true
      · rw [if_pos hpf]
        constructor
        · intro hcontra
          exfalso
          revert hcontra
          split
          · simp
          · exact proposalOf_ne_exhausted tzC tzA _ _
        · intro hall
          exfalso
          have hx := hall (c, a) (by simp)
          rw [hmatch, hpf] at hx
          exact Bool.noConfusion hx
      · have hpf' : List.isPrefixOf pfx (git_commit_hash m) = false := by
          revert hpf; cases List.isPrefixOf pfx (git_commit_hash m) <;> simp
        rw [if_neg (by rw [hpf']; exact Bool.false_ne_true)]
        rw [ih (fun q hq => hc q (by simp [hq]))]
        constructor
        · intro hall q hq
          rcases List.mem_cons.mp hq with rfl | hq2
          · rw [hmatch, hpf']
          · exact hall q hq2
        · intro hall q hq
          exact hall q (by simp [hq])

theorem searchLoop_first {fmt : List Nat} {oldA oldC : Int}
    {tzA tzC : Option (List Nat)} {pfx : List Nat} {L : List (Nat × Nat)}
    {r : SearchOutcome}
    (h : searchLoop fmt oldA oldC tzA tzC pfx L = r)
    (hr : r = .noOp ∨ ∃ cd ad, r = .proposal cd ad) :
    ∃ L₁ c a L₂, L = L₁ ++ (c, a) :: L₂ ∧
      (∀ q ∈ L₁, matchesAt fmt oldA oldC pfx q.1 q.2 = false) ∧
      matchesAt fmt oldA oldC pfx c a = true ∧
      ((a = 0 ∧ c = 0 ∧ r = .noOp) ∨
       (¬(a = 0 ∧ c = 0) ∧ ∃ zA zC, tzA = some zA ∧ tzC = some zC ∧
         r = .proposal (fmt_ts_tz (oldC + (c : Int)) zC) (fmt_ts_tz (oldA + (a : Int)) zA))) := by
  induction L generalizing r with
  | nil =>
    rw [searchLoop_nil] at h
    rcases hr with rfl | ⟨cd, ad, rfl⟩ <;> exact absurd h (by simp)
  | cons p rest ih =>
    obtain ⟨c, a⟩ := p
    cases hm : candAt fmt oldA oldC c a with
    | none =>
      rw [searchLoop_cons_none hm] at h
      rcases hr with rfl | ⟨cd, ad, rfl⟩ <;> exact absurd h (by simp)
    | some m =>
      rw [searchLoop_cons_some hm] at h
      have hmatch := @matchesAt_eq_of_cand fmt oldA oldC pfx c a m hm
      by_cases hpf : List.isPrefixOf pfx (git_commit_hash m) = true
      · rw [if_pos hpf] at h
        refine ⟨[], c, a, rest, rfl, by simp, by rw [hmatch, hpf], ?_⟩
        by_cases hz : (a == 0 && c == 0) = true
        · have hz' : a = 0 ∧ c = 0 := by
            simp only [Bool.and_eq_true, beq_iff_eq] at hz
            exact hz
          rw [if_pos hz] at h
          exact Or.inl ⟨hz'.1, hz'.2, h.symm⟩
        · rw [if_neg hz] at h
          have hz' : ¬(a = 0 ∧ c = 0) := by
            intro hcon
            exact hz (by simp [hcon.1, hcon.2])
          cases htzC : tzC with
          | none =>
            exfalso
            rw [htzC] at h
            simp only [proposalOf] at h
            rcases hr with rfl | ⟨cd, ad, rfl⟩ <;> exact absurd h (by simp)
          | some zC =>
            cases htzA : tzA with
            | none =>
              exfalso
              rw [htzC, htzA] at h
              simp only [proposalOf] at h
              rcases hr with rfl | ⟨cd, ad, rfl⟩ <;> exact absurd h (by simp)
            | some zA =>
              rw [htzC, htzA] at h
              simp only [proposalOf] at h
              exact Or.inr ⟨hz', zA, zC, rfl, rfl, h.symm⟩
      · have hpf' : List.isPrefixOf pfx (git_commit_hash m) = false := by
          revert hpf; cases List.isPrefixOf pfx (git_commit_hash m) <;> simp
        rw [if_neg (by rw [hpf']; exact Bool.false_ne_true)] at h
        obtain ⟨L₁, c', a', L₂, hL, hL1, hma, hres⟩ := ih h hr
        refine ⟨(c, a) :: L₁, c', a', L₂, by rw [hL, List.cons_append], ?_, hma, hres⟩
        intro q hq
        rcases List.mem_cons.mp hq with rfl | hq2
        · rw [hmatch, hpf']
        · exact hL1 q hq2

/-! ### The enumeration order -/

theorem pairsUpTo_mem (m : Nat) (p : Nat × Nat) :
    p ∈ pairsUpTo m ↔ p.2 ≤ p.1 ∧ p.1 ≤ m := by
  obtain ⟨c, a⟩ := p
  simp only [pairsUpTo, List.mem_flatMap, List.mem_range, List.mem_map, Prod.mk.injEq]
  constructor
  · rintro ⟨c', hc', a', ha', rfl, rfl⟩
    omega
  · rintro ⟨h1, h2⟩
    exact ⟨c, by omega, a, by omega, rfl, rfl⟩

theorem pairsUpTo_succ (m : Nat) :
    pairsUpTo (m + 1) =
      pairsUpTo m ++ (List.range (m + 2)).map (fun a => (m + 1, a)) := by
  rw [pairsUpTo, pairsUpTo]
  rw [show m + 1 + 1 = (m + 1) + 1 from rfl, List.range_succ, List.flatMap_append]
  simp [List.range_succ]

theorem pairsUpTo_pairwise (m : Nat) : (pairsUpTo m).Pairwise pairLexLT := by
  induction m with
  | zero =>
    have h0 : pairsUpTo 0 = [(0, 0)] := by decide
    rw [h0]
    exact List.pairwise_singleton _ _
  | succ n ih =>
    rw [pairsUpTo_succ, List.pairwise_append]
    refine ⟨ih, ?_, ?_⟩
    · refine List.Pairwise.map _ ?_ (List.pairwise_lt_range (n + 2))
      intro a b hab
      right
      exact ⟨rfl, hab⟩
    · intro p hp q hq
      have h1 := (pairsUpTo_mem n p).mp hp
      obtain ⟨b, hb, rfl⟩ := List.mem_map.mp hq
      left
      simp only []
      omega

theorem pairsUpTo_head (m : Nat) :
    ∃ t, pairsUpTo m = (0, 0) :: t := by
  refine ⟨((List.range m).map Nat.succ).flatMap
    (fun c => (List.range (c + 1)).map (fun a => (c, a))), ?_⟩
  rw [pairsUpTo, List.range_succ_eq_map]
  simp [List.flatMap_cons, List.range_succ]

/-! ### Unfolding `find_beautiful_git_hash` -/

theorem find_eq_searchLoop {commit pfx : List Nat} {mm : Nat} {fmt : List Nat}
    {v : AggregateValues} {oldA oldC : Int}
    (hp : pfx.all hexLower = true)
    (hf : commit_to_format commit = some (fmt, v))
    (ha : v.author_date_timestamp = some oldA)
    (hc : v.committer_date_timestamp = some oldC) :
    find_beautiful_git_hash commit pfx mm =
      searchLoop fmt oldA oldC v.author_date_tz v.committer_date_tz pfx
        (pairsUpTo (mm * 60)) := by
  simp [find_beautiful_git_hash, hp, hf, ha, hc]

theorem find_result_cases {commit pfx : List Nat} {mm : Nat} {r : SearchOutcome}
    (h : find_beautiful_git_hash commit pfx mm = r)
    (hr : r = .noOp ∨ ∃ cd ad, r = .proposal cd ad) :
    pfx.all hexLower = true ∧ ∃ fmt v oldA oldC,
      commit_to_format commit = some (fmt, v) ∧
      v.author_date_timestamp = some oldA ∧ v.committer_date_timestamp = some oldC ∧
      searchLoop fmt oldA oldC v.author_date_tz v.committer_date_tz pfx
        (pairsUpTo (mm * 60)) = r := by
  by_cases hp : pfx.all hexLower = true
  · refine ⟨hp, ?_⟩
    rw [find_beautiful_git_hash, if_pos hp] at h
    split at h
    · rcases hr with rfl | ⟨cd, ad, rfl⟩ <;> exact absurd h (by simp)
    · rename_i fmt old_values heq
      split at h
      · rename_i oldA oldC ha hc
        exact ⟨fmt, old_values, oldA, oldC, heq, ha, hc, h⟩
      · rcases hr with rfl | ⟨cd, ad, rfl⟩ <;> exact absurd h (by simp)
  · exfalso
    rw [find_beautiful_git_hash, if_neg hp] at h
    rcases hr with rfl | ⟨cd, ad, rfl⟩ <;> exact absurd h (by simp)

theorem candAt_isSome {commit fmt : List Nat} {v : AggregateValues}
    (hf : commit_to_format commit = some (fmt, v)) (oldA oldC : Int) (c a : Nat) :
    (candAt fmt oldA oldC c a).isSome = true := by
  obtain ⟨out, hout, _⟩ := pyFmt_commit_to_format hf (oldA + (a : Int)) (oldC + (c : Int))
  rw [candAt, hout]
  rfl

theorem parsesOk_elim {commit : List Nat} (h : parsesOk commit = true) :
    ∃ fmt v oldA oldC zA zC, commit_to_format commit = some (fmt, v) ∧
      v.author_date_timestamp = some oldA ∧ v.committer_date_timestamp = some oldC ∧
      v.author_date_tz = some zA ∧ v.committer_date_tz = some zC := by
  rw [parsesOk] at h
  split at h
  · rename_i fmt v heq
    simp only [Bool.and_eq_true, Option.isSome_iff_exists] at h
    obtain ⟨⟨⟨⟨oldA, ha⟩, oldC, hc⟩, zA, hza⟩, zC, hzc⟩ := h
    exact ⟨fmt, v, oldA, oldC, zA, zC, heq, ha, hc, hza, hzc⟩
  · exact absurd h (by simp)

theorem find_invalid_iff (commit pfx : List Nat) (mm : Nat) :
    find_beautiful_git_hash commit pfx mm = .invalidPfx ↔ pfx.all hexLower = false := by
  by_cases hp : pfx.all hexLower = true
  · rw [find_beautiful_git_hash, if_pos hp, hp]
    constructor
    · intro h
      exfalso
      revert h
      split
      · simp
      · split
        · intro h
          exact absurd h (searchLoop_ne_invalid _ _ _ _ _ _ _)
        · simp
    · intro h
      exact absurd h (by simp)
  · have hp' : pfx.all hexLower = false := by
      revert hp; cases pfx.all hexLower <;> simp
    rw [find_beautiful_git_hash, if_neg hp, hp']
    simp

/-! ### Remaining helper lemmas -/

theorem pyInt_digits {ds : List Nat} (hne : ds ≠ []) (hall : ds.all isDigitByte = true) :
    pyInt ds = some ((digitsToNat ds : Int)) := by
  have hnospace : ∀ b ∈ ds, isSpaceByte b = false := by
    intro b hb
    have hd := (List.all_eq_true.mp hall) b hb
    rw [isDigitByte] at hd
    simp only [Bool.and_eq_true, decide_eq_true_eq] at hd
    rw [isSpaceByte]
    simp only [Bool.or_eq_false_iff, decide_eq_false_iff_not]
    omega
  have hstrip : stripSpaces ds = ds := by
    rw [stripSpaces]
    have h1 : ds.dropWhile isSpaceByte = ds := by
      cases ds with
      | nil => rfl
      | cons b t =>
        rw [List.dropWhile_cons, hnospace b (by simp)]
        simp
    rw [h1]
    have h2 : ds.reverse.dropWhile isSpaceByte = ds.reverse := by
      cases hrev : ds.reverse with
      | nil => rfl
      | cons b t =>
        have hb : b ∈ ds := by
          have hmem : b ∈ ds.reverse := by rw [hrev]; simp
          simpa using hmem
        rw [List.dropWhile_cons, hnospace b hb]
        simp
    rw [h2, List.reverse_reverse]
  cases ds with
  | nil => exact absurd rfl hne
  | cons b t =>
    have hb := (List.all_eq_true.mp hall) b (by simp)
    rw [isDigitByte] at hb
    simp only [Bool.and_eq_true, decide_eq_true_eq] at hb
    have h43 : ¬ b = 43 := by omega
    have h45 : ¬ b = 45 := by omega
    simp only [pyInt, hstrip, h43, h45, if_false]
    rw [digitsVal, if_neg (by simp), if_pos hall]

theorem lineLastWord_esc_raw {l : List Nat} {w : List Nat}
    (hlw : lineLastWord l = some w) :
    ∃ raw, lineRawTz l = some raw ∧ w = escapePercent raw := by
  rw [lineLastWord] at hlw
  by_cases hlen : (splitByte 32 (escapePercent l)).length < 2
  · rw [if_pos hlen] at hlw
    exact absurd hlw (by simp)
  · rw [if_neg hlen] at hlw
    have hesc := splitByte_escape l
    have hlenraw : 2 ≤ (splitByte 32 l).length := by
      rw [hesc] at hlen
      simp only [List.length_map] at hlen
      omega
    obtain ⟨rs₁, x, y, hdecomp⟩ := exists_last_two _ hlenraw
    refine ⟨y, ?_, ?_⟩
    · rw [lineRawTz, hdecomp, show rs₁ ++ [x, y] = (rs₁ ++ [x]) ++ [y] by simp]
      exact List.getLast?_concat _
    · rw [hesc, hdecomp] at hlw
      have h2 := (get2_append_two (rs₁.map escapePercent) (escapePercent x) (escapePercent y)).2
      have hmap : List.map escapePercent (rs₁ ++ [x, y]) =
          rs₁.map escapePercent ++ [escapePercent x, escapePercent y] := by simp
      rw [hmap] at hlw
      have hlen2 : (rs₁.map escapePercent ++ [escapePercent x, escapePercent y]).length - 1 =
          (rs₁.map escapePercent).length + 1 := by simp
      rw [hlen2, h2] at hlw
      exact (Option.some.inj hlw).symm

/-! ### The claims -/

/-- C1 (counterexample): the round-trip claim fails as stated.  The commit
`author a <a> 007 +0200\ncommitter c <c> 7 +0200` is well-formed in the
claim's sense (exactly one author and one committer line, each with an
integer second-to-last field), but `int` normalizes the field `007` to `7`,
so substituting the extracted value back does not reproduce the original
bytes. -/
theorem C1_round_trip_counterexample :
    claimWellFormed (ascii "author a <a> 007 +0200\ncommitter c <c> 7 +0200") = true ∧
    roundTrips (ascii "author a <a> 007 +0200\ncommitter c <c> 7 +0200") = false := by
  constructor
  · decide
  · decide

/-- C1 (amended): for every commit with exactly one `author` and one
`committer` line whose second-to-last fields are the canonical decimal
rendering of their integer values, applying `commit_to_format` and then
substituting the original extracted timestamp values back into the template
reproduces the original byte sequence exactly, including literal `%`
characters. -/
theorem C1_round_trip (commit : List Nat) (h : canonicalCommit commit = true) :
    roundTrips commit = true :=
  roundTrip_core h

/-- C1 witness: a concrete canonical commit containing a literal `%` and a
negative timestamp round-trips. -/
theorem C1_round_trip_witness :
    canonicalCommit (ascii "author J%n <a> 5 +0200\ncommitter c <c> -6 -0100") = true ∧
    roundTrips (ascii "author J%n <a> 5 +0200\ncommitter c <c> -6 -0100") = true :=
  ⟨by decide, C1_round_trip _ (by decide)⟩

/-- C5: the search raises the prefix-validation error exactly when the
prefix contains a byte outside `0123456789abcdef`; validation is checked
before the commit is even parsed, so the outcome does not depend on the
commit. -/
theorem C5_validation (commit pfx : List Nat) (mm : Nat) :
    find_beautiful_git_hash commit pfx mm = .invalidPfx ↔
      ∃ b ∈ pfx, hexLower b = false := by
  rw [find_invalid_iff]
  simp

/-- C7: the digest of every candidate byte string is the lowercase-hex SHA-1
digest of `"commit " ++ decimal length ++ NUL ++ candidate`, and it is a
40-character lowercase hex string. -/
theorem C7_digest_framing (b : List Nat) :
    git_commit_hash b = sha1Hex (ascii "commit " ++ intBytes (b.length : Int) ++ 0 :: b) ∧
    (git_commit_hash b).length = 40 ∧ (git_commit_hash b).all hexLower = true := by
  refine ⟨git_commit_hash_eq b, ?_, ?_⟩
  · rw [git_commit_hash_eq]
    exact (sha1Hex_shape _).1
  · rw [git_commit_hash_eq]
    exact (sha1Hex_shape _).2

/-- C9: with no resolvable previous commit the derived prefix is `0001a`;
with a resolvable identifier whose first four characters are decimal digits
of value `n`, the derived prefix is `n + 1` zero-padded to width 4 followed
by `a`. -/
theorem C9_auto_prefix_rule :
    (∀ out ds : List Nat, (rstripNl out).take 4 = ds → ds.length = 4 →
        ds.all isDigitByte = true →
        proposed_prefix (some out) 4 =
          some (rjustZero 4 (intBytes ((digitsToNat ds : Int) + 1)) ++ [97])) ∧
    proposed_prefix none 4 = some (ascii "0001a") := by
  constructor
  · intro out ds htake hlen hall
    have hne : ds ≠ [] := by
      intro hcon
      rw [hcon] at hlen
      simp at hlen
    simp only [ proposed_prefix, htake, pyInt_digits hne hall, Option.map_some']
  · decide

/-- C9 witness: `0007…` yields `0008a`, and no previous commit yields
`0001a`. -/
theorem C9_auto_prefix_rule_witness :
    ((rstripNl (ascii "0007deadbeef\n")).take 4 = ascii "0007" ∧
      (ascii "0007").length = 4 ∧ (ascii "0007").all isDigitByte = true) ∧
    proposed_prefix (some (ascii "0007deadbeef\n")) 4 =
      some (rjustZero 4 (intBytes ((digitsToNat (ascii "0007") : Int) + 1)) ++ [97]) ∧
    rjustZero 4 (intBytes ((digitsToNat (ascii "0007") : Int) + 1)) ++ [97] = ascii "0008a" ∧
    proposed_prefix none 4 = some (ascii "0001a") :=
  ⟨⟨by decide, by decide, by decide⟩,
   C9_auto_prefix_rule.1 (ascii "0007deadbeef\n") (ascii "0007") (by decide) (by decide)
     (by decide),
   by decide, C9_auto_prefix_rule.2⟩

/-- C10: the empty prefix passes validation, and for every commit that
parses (both timestamp/timezone pairs extracted) the search returns the
no-op sentinel at the very first offset pair `(0, 0)`, since every digest
starts with the empty string. -/
theorem C10_empty_prefix_noop (commit : List Nat) (mm : Nat)
    (hok : parsesOk commit = true) :
    (([] : List Nat)).all hexLower = true ∧
    find_beautiful_git_hash commit [] mm = .noOp := by
  refine ⟨rfl, ?_⟩
  obtain ⟨fmt, v, oldA, oldC, zA, zC, hf, ha, hc, hza, hzc⟩ := parsesOk_elim hok
  rw [find_eq_searchLoop (by rfl) hf ha hc]
  obtain ⟨t, ht⟩ := pairsUpTo_head (mm * 60)
  rw [ht]
  have hcand := candAt_isSome hf oldA oldC 0 0
  cases hm : candAt fmt oldA oldC 0 0 with
  | none => rw [hm] at hcand; simp at hcand
  | some m =>
    rw [searchLoop_cons_some hm]
    have hpf : List.isPrefixOf ([] : List Nat) (git_commit_hash m) = true := rfl
    rw [if_pos hpf]
    simp

/-- C10 witness. -/
theorem C10_empty_prefix_noop_witness :
    parsesOk (ascii "author a <a> 1000000000 +0200\ncommitter c <c> 1000000000 +0200") = true ∧
    ((([] : List Nat)).all hexLower = true ∧
     find_beautiful_git_hash
       (ascii "author a <a> 1000000000 +0200\ncommitter c <c> 1000000000 +0200") [] 5 =
       .noOp) :=
  ⟨by decide, C10_empty_prefix_noop _ 5 (by decide)⟩

/-- C4 (counterexample): the no-op claim fails as stated.  On the
well-formed but non-canonical commit whose author field is `007`, the digest
of the unmodified bytes starts with `e`, yet the search (which hashes the
re-serialized candidate, where the field reads `7`) does not return the
no-op sentinel — with a zero search bound it exhausts instead. -/
theorem C4_noop_counterexample :
    claimWellFormed (ascii "author a <a> 007 +0200\ncommitter c <c> 7 +0200") = true ∧
    (ascii "e").all hexLower = true ∧
    List.isPrefixOf (ascii "e")
      (git_commit_hash (ascii "author a <a> 007 +0200\ncommitter c <c> 7 +0200")) = true ∧
    find_beautiful_git_hash (ascii "author a <a> 007 +0200\ncommitter c <c> 7 +0200")
      (ascii "e") 0 = .exhausted := by
  refine ⟨by decide, by decide, by decide, by decide⟩

/-- C4 (amended): for every commit whose timestamp fields are canonical (so
that the re-serialized candidate at offsets `(0,0)` is byte-identical to the
original) and every valid prefix, if the digest of the unmodified commit
already starts with the prefix then the search returns the no-op sentinel,
never a nonzero-offset proposal. -/
theorem C4_noop_correctness (commit pfx : List Nat) (mm : Nat)
    (hcan : canonicalCommit commit = true)
    (hp : pfx.all hexLower = true)
    (hd : List.isPrefixOf pfx (git_commit_hash commit) = true) :
    find_beautiful_git_hash commit pfx mm = .noOp := by
  obtain ⟨fmt, v, a, c, hf, ha, hc, _, _, hfmt⟩ := canonical_parse hcan
  rw [find_eq_searchLoop hp hf ha hc]
  obtain ⟨t, ht⟩ := pairsUpTo_head (mm * 60)
  rw [ht]
  have hcand0 : candAt fmt a c 0 0 = some commit := by
    rw [candAt]
    have h1 : a + ((0 : Nat) : Int) = a := by simp
    have h2 : c + ((0 : Nat) : Int) = c := by simp
    rw [h1, h2]
    exact hfmt
  rw [searchLoop_cons_some hcand0, if_pos hd]
  simp

/-- C4 witness: a canonical commit whose digest starts with `6` yields the
no-op sentinel for prefix `6`. -/
theorem C4_noop_correctness_witness :
    canonicalCommit
      (ascii "author a <a> 1000000000 +0200\ncommitter c <c> 1000000000 +0200") = true ∧
    (ascii "6").all hexLower = true ∧
    List.isPrefixOf (ascii "6")
      (git_commit_hash
        (ascii "author a <a> 1000000000 +0200\ncommitter c <c> 1000000000 +0200")) = true ∧
    find_beautiful_git_hash
      (ascii "author a <a> 1000000000 +0200\ncommitter c <c> 1000000000 +0200")
      (ascii "6") 0 = .noOp :=
  ⟨by decide, by decide, by decide,
   C4_noop_correctness _ _ 0 (by decide) (by decide) (by decide)⟩

/-- C2: whenever the search returns a result (the no-op sentinel or a
proposal), the offset pair it corresponds to matches the prefix, lies in
bounds, and is the lexicographically smallest matching pair, comparing the
committer offset first. -/
theorem C2_minimality (commit pfx : List Nat) (mm : Nat) (r : SearchOutcome)
    (h : find_beautiful_git_hash commit pfx mm = r)
    (hr : r = .noOp ∨ ∃ cd ad, r = .proposal cd ad) :
    ∃ fmt v oldA oldC c a,
      commit_to_format commit = some (fmt, v) ∧
      v.author_date_timestamp = some oldA ∧
      v.committer_date_timestamp = some oldC ∧
      a ≤ c ∧ c ≤ mm * 60 ∧
      matchesAt fmt oldA oldC pfx c a = true ∧
      (∀ c' a', a' ≤ c' → c' ≤ mm * 60 → matchesAt fmt oldA oldC pfx c' a' = true →
        c < c' ∨ (c = c' ∧ a ≤ a')) ∧
      (r = .noOp → c = 0 ∧ a = 0) ∧
      (∀ cd ad, r = .proposal cd ad → ¬(a = 0 ∧ c = 0) ∧
        ∃ zA zC, v.author_date_tz = some zA ∧ v.committer_date_tz = some zC ∧
          cd = intBytes (oldC + (c : Int)) ++ 32 :: zC ∧
          ad = intBytes (oldA + (a : Int)) ++ 32 :: zA) := by
  obtain ⟨hp, fmt, v, oldA, oldC, hf, ha, hc, hsl⟩ := find_result_cases h hr
  obtain ⟨L₁, c, a, L₂, hL, hL1, hma, hres⟩ := searchLoop_first hsl hr
  have hmem : (c, a) ∈ pairsUpTo (mm * 60) := by rw [hL]; simp
  have hbounds := (pairsUpTo_mem (mm * 60) (c, a)).mp hmem
  refine ⟨fmt, v, oldA, oldC, c, a, hf, ha, hc, hbounds.1, hbounds.2, hma, ?_, ?_, ?_⟩
  · intro c' a' hac hcb hm'
    have hmem' : (c', a') ∈ pairsUpTo (mm * 60) := (pairsUpTo_mem _ _).mpr ⟨hac, hcb⟩
    rw [hL] at hmem'
    rcases List.mem_append.mp hmem' with h1 | h2
    · exact absurd hm' (by rw [hL1 (c', a') h1]; simp)
    · rcases List.mem_cons.mp h2 with heq | h3
      · have hpair : c' = c ∧ a' = a := by
          have := heq
          simp only [Prod.mk.injEq] at this
          exact this
        right
        exact ⟨hpair.1.symm, by omega⟩
      · have hpw := pairsUpTo_pairwise (mm * 60)
        rw [hL] at hpw
        have hcons := (List.pairwise_append.mp hpw).2.1
        have hrel := (List.pairwise_cons.mp hcons).1 (c', a') h3
        rcases hrel with hlt | ⟨heq2, hlt2⟩
        · left; exact hlt
        · right; exact ⟨heq2, by omega⟩
  · intro hno
    rcases hres with ⟨ha0, hc0, _⟩ | ⟨hnz, zA, zC, htzA, htzC, hreq⟩
    · exact ⟨hc0, ha0⟩
    · exfalso
      rw [hno] at hreq
      exact absurd hreq (by simp)
  · intro cd ad hprop
    rcases hres with ⟨ha0, hc0, hreq⟩ | ⟨hnz, zA, zC, htzA, htzC, hreq⟩
    · exfalso
      rw [hprop] at hreq
      exact absurd hreq (by simp)
    · rw [hprop] at hreq
      injection hreq with hcd had
      exact ⟨hnz, zA, zC, htzA, htzC,
        by rw [hcd, fmt_ts_tz_eq], by rw [had, fmt_ts_tz_eq]⟩

/-- C2 witness: with the empty prefix the first pair `(0, 0)` matches, the
result is the no-op sentinel, and `(0, 0)` is trivially minimal. -/
theorem C2_minimality_witness :
    ∃ fmt v oldA oldC c a,
      commit_to_format
        (ascii "author a <a> 1000000000 +0200\ncommitter c <c> 1000000000 +0200") =
        some (fmt, v) ∧
      v.author_date_timestamp = some oldA ∧
      v.committer_date_timestamp = some oldC ∧
      a ≤ c ∧ c ≤ 0 * 60 ∧
      matchesAt fmt oldA oldC [] c a = true ∧
      (∀ c' a', a' ≤ c' → c' ≤ 0 * 60 → matchesAt fmt oldA oldC [] c' a' = true →
        c < c' ∨ (c = c' ∧ a ≤ a')) ∧
      (SearchOutcome.noOp = .noOp → c = 0 ∧ a = 0) ∧
      (∀ cd ad, SearchOutcome.noOp = .proposal cd ad → ¬(a = 0 ∧ c = 0) ∧
        ∃ zA zC, v.author_date_tz = some zA ∧ v.committer_date_tz = some zC ∧
          cd = intBytes (oldC + (c : Int)) ++ 32 :: zC ∧
          ad = intBytes (oldA + (a : Int)) ++ 32 :: zA) :=
  C2_minimality
    (ascii "author a <a> 1000000000 +0200\ncommitter c <c> 1000000000 +0200") [] 0
    .noOp (by decide) (Or.inl rfl)

/-- C3: every proposal the search returns increases both timestamps by
non-negative amounts, with the author increase never exceeding the committer
increase. -/
theorem C3_order_invariant (commit pfx : List Nat) (mm : Nat) (cd ad : List Nat)
    (h : find_beautiful_git_hash commit pfx mm = .proposal cd ad) :
    ∃ fmt v oldA oldC newA newC zA zC,
      commit_to_format commit = some (fmt, v) ∧
      v.author_date_timestamp = some oldA ∧
      v.committer_date_timestamp = some oldC ∧
      v.author_date_tz = some zA ∧
      v.committer_date_tz = some zC ∧
      ad = intBytes newA ++ 32 :: zA ∧
      cd = intBytes newC ++ 32 :: zC ∧
      oldA ≤ newA ∧ oldC ≤ newC ∧ newA - oldA ≤ newC - oldC := by
  have hr : (SearchOutcome.proposal cd ad) = .noOp ∨
      ∃ cd2 ad2, (SearchOutcome.proposal cd ad) = .proposal cd2 ad2 := Or.inr ⟨cd, ad, rfl⟩
  obtain ⟨hp, fmt, v, oldA, oldC, hf, ha, hc, hsl⟩ := find_result_cases h hr
  obtain ⟨L₁, c, a, L₂, hL, hL1, hma, hres⟩ := searchLoop_first hsl hr
  rcases hres with ⟨_, _, hbad⟩ | ⟨hnz, zA, zC, htzA, htzC, hreq⟩
  · exact absurd hbad (by simp)
  · injection hreq with hcd had
    have hmem : (c, a) ∈ pairsUpTo (mm * 60) := by rw [hL]; simp
    have hb := (pairsUpTo_mem _ _).mp hmem
    have hb1 := hb.1
    refine ⟨fmt, v, oldA, oldC, oldA + (a : Int), oldC + (c : Int), zA, zC,
      hf, ha, hc, htzA, htzC, ?_, ?_, ?_, ?_, ?_⟩
    · rw [had, fmt_ts_tz_eq]
    · rw [hcd, fmt_ts_tz_eq]
    · omega
    · omega
    · omega

/-- C3 witness: a concrete search that returns a proposal at offsets
`(committer, author) = (1, 0)`. -/
theorem C3_order_invariant_witness :
    ∃ fmt v oldA oldC newA newC zA zC,
      commit_to_format
        (ascii "author a <a> 1000000000 +0200\ncommitter c <c> 1000000000 +0200") =
        some (fmt, v) ∧
      v.author_date_timestamp = some oldA ∧
      v.committer_date_timestamp = some oldC ∧
      v.author_date_tz = some zA ∧
      v.committer_date_tz = some zC ∧
      ascii "1000000000 +0200" = intBytes newA ++ 32 :: zA ∧
      ascii "1000000001 +0200" = intBytes newC ++ 32 :: zC ∧
      oldA ≤ newA ∧ oldC ≤ newC ∧ newA - oldA ≤ newC - oldC :=
  C3_order_invariant
    (ascii "author a <a> 1000000000 +0200\ncommitter c <c> 1000000000 +0200")
    (ascii "7") 1 (ascii "1000000001 +0200") (ascii "1000000000 +0200") (by decide)

/-- C6: for a commit that parses and a valid prefix, the search raises the
exhaustion failure exactly when no offset pair within the bounds yields a
candidate digest starting with the prefix. -/
theorem C6_exhaustion (commit pfx : List Nat) (mm : Nat)
    (hok : parsesOk commit = true) (hp : pfx.all hexLower = true) :
    (find_beautiful_git_hash commit pfx mm = .exhausted ↔
      ∀ c a : Nat, a ≤ c → c ≤ mm * 60 → commitMatchesAt commit pfx c a = false) := by
  obtain ⟨fmt, v, oldA, oldC, zA, zC, hf, ha, hc, hza, hzc⟩ := parsesOk_elim hok
  rw [find_eq_searchLoop hp hf ha hc,
    searchLoop_exhausted_iff (fun p _ => candAt_isSome hf oldA oldC p.1 p.2)]
  constructor
  · intro hall c a hac hcb
    have hx := hall (c, a) ((pairsUpTo_mem _ _).mpr ⟨hac, hcb⟩)
    simp only [commitMatchesAt, hf, ha, hc]
    exact hx
  · intro hall p hmem
    have hb := (pairsUpTo_mem _ _).mp hmem
    have hx := hall p.1 p.2 hb.1 hb.2
    simp only [commitMatchesAt, hf, ha, hc] at hx
    exact hx

/-- C6 witness: with a zero bound, only the pair `(0, 0)` is in bounds. -/
theorem C6_exhaustion_witness :
    parsesOk (ascii "author a <a> 1000000000 +0200\ncommitter c <c> 1000000000 +0200") =
      true ∧
    (ascii "0").all hexLower = true ∧
    (find_beautiful_git_hash
        (ascii "author a <a> 1000000000 +0200\ncommitter c <c> 1000000000 +0200")
        (ascii "0") 0 = .exhausted ↔
      ∀ c a : Nat, a ≤ c → c ≤ 0 * 60 →
        commitMatchesAt
          (ascii "author a <a> 1000000000 +0200\ncommitter c <c> 1000000000 +0200")
          (ascii "0") c a = false) :=
  ⟨by decide, by decide, C6_exhaustion _ _ 0 (by decide) (by decide)⟩

/-- C8 (counterexample): the timezone-frame claim fails as stated.  On a
well-formed commit whose committer timezone contains a literal `%`, the
script stores the `%`-escaped last word and prints it verbatim into the
proposal, so the proposal's timezone is the escaped form, not the original
string. -/
theorem C8_timezone_counterexample :
    claimWellFormed (ascii "author a <a> 5 +0200\ncommitter c <c> 5 +0%2") = true ∧
    committerTzRaw (ascii "author a <a> 5 +0200\ncommitter c <c> 5 +0%2") =
      some (ascii "+0%2") ∧
    find_beautiful_git_hash (ascii "author a <a> 5 +0200\ncommitter c <c> 5 +0%2")
      (ascii "6") 1 = .proposal (ascii "6 +0%%2") (ascii "5 +0200") ∧
    dateTz (ascii "6 +0%%2") ≠ ascii "+0%2" := by
  refine ⟨by decide, by decide, by decide, by decide⟩

/-- C8 (amended): whenever the search returns a proposal for a well-formed
commit, the timezone component of the proposal's author (resp. committer)
date value is the original author (resp. committer) timezone with each
literal `%` doubled — hence exactly the original timezone whenever it
contains no `%`; the timezones are never searched over. -/
theorem C8_timezone_carried (commit pfx : List Nat) (mm : Nat) (cd ad zA zC : List Nat)
    (hwf : claimWellFormed commit = true)
    (h : find_beautiful_git_hash commit pfx mm = .proposal cd ad)
    (hza : authorTzRaw commit = some zA)
    (hzc : committerTzRaw commit = some zC) :
    ∃ newA newC : Int,
      ad = intBytes newA ++ 32 :: escapePercent zA ∧
      cd = intBytes newC ++ 32 :: escapePercent zC := by
  have hr : (SearchOutcome.proposal cd ad) = .noOp ∨
      ∃ cd2 ad2, (SearchOutcome.proposal cd ad) = .proposal cd2 ad2 := Or.inr ⟨cd, ad, rfl⟩
  obtain ⟨hp, fmt, v, oldA, oldC, hf, ha, hc, hsl⟩ := find_result_cases h hr
  obtain ⟨L₁, c, a, L₂, hL, hL1, hma, hres⟩ := searchLoop_first hsl hr
  rcases hres with ⟨_, _, hbad⟩ | ⟨hnz, zA', zC', htzA, htzC, hreq⟩
  · exact absurd hbad (by simp)
  · injection hreq with hcd had
    simp only [claimWellFormed, Bool.and_eq_true, beq_iff_eq] at hwf
    obtain ⟨⟨hwfA, hwfC⟩, _⟩ := hwf
    obtain ⟨fls, hpl, _⟩ := commit_to_format_elim hf
    obtain ⟨la, hla, hfa⟩ := List.exists_of_findSome?_eq_some hza
    have hlaA : isAuthorLine la = true := by
      by_contra hcontra
      have hfalse : isAuthorLine la = false := by
        revert hcontra; cases isAuthorLine la <;> simp
      rw [hfalse] at hfa
      simp at hfa
    have hrawA : lineRawTz la = some zA := by
      rw [hlaA] at hfa
      simpa using hfa
    have hAval := processLines_author_val hpl (by omega) la hla hlaA
    have hlwA : lineLastWord la = some zA' := by
      rw [← hAval.2, htzA]
    obtain ⟨rawA, hrawA2, hescA⟩ := lineLastWord_esc_raw hlwA
    have hrA : rawA = zA := Option.some.inj (hrawA2.symm.trans hrawA)
    obtain ⟨lc, hlc, hfc⟩ := List.exists_of_findSome?_eq_some hzc
    have hlcC : isCommitterLine lc = true := by
      by_contra hcontra
      have hfalse : isCommitterLine lc = false := by
        revert hcontra; cases isCommitterLine lc <;> simp
      rw [hfalse] at hfc
      simp at hfc
    have hrawC : lineRawTz lc = some zC := by
      rw [hlcC] at hfc
      simpa using hfc
    have hCval := processLines_committer_val hpl (by omega) lc hlc hlcC
    have hlwC : lineLastWord lc = some zC' := by
      rw [← hCval.2, htzC]
    obtain ⟨rawC, hrawC2, hescC⟩ := lineLastWord_esc_raw hlwC
    have hrC : rawC = zC := Option.some.inj (hrawC2.symm.trans hrawC)
    refine ⟨oldA + (a : Int), oldC + (c : Int), ?_, ?_⟩
    · rw [had, fmt_ts_tz_eq, hescA, hrA]
    · rw [hcd, fmt_ts_tz_eq, hescC, hrC]

/-- C8 witness: for a `%`-free timezone the carried timezone is exactly the
original one. -/
theorem C8_timezone_carried_witness :
    (claimWellFormed
        (ascii "author a <a> 1000000000 +0200\ncommitter c <c> 1000000000 +0200") = true ∧
      authorTzRaw
        (ascii "author a <a> 1000000000 +0200\ncommitter c <c> 1000000000 +0200") =
        some (ascii "+0200") ∧
      committerTzRaw
        (ascii "author a <a> 1000000000 +0200\ncommitter c <c> 1000000000 +0200") =
        some (ascii "+0200")) ∧
    (∃ newA newC : Int,
      ascii "1000000000 +0200" = intBytes newA ++ 32 :: escapePercent (ascii "+0200") ∧
      ascii "1000000001 +0200" = intBytes newC ++ 32 :: escapePercent (ascii "+0200")) ∧
    escapePercent (ascii "+0200") = ascii "+0200" :=
  ⟨⟨by decide, by decide, by decide⟩,
   C8_timezone_carried
     (ascii "author a <a> 1000000000 +0200\ncommitter c <c> 1000000000 +0200")
     (ascii "7") 1 (ascii "1000000001 +0200") (ascii "1000000000 +0200")
     (ascii "+0200") (ascii "+0200") (by decide) (by decide) (by decide) (by decide),
   by decide⟩
